import Mathlib

/-!
Verification of the stock-scanner scan core against its specification.

This file shallowly embeds the scan subsystem of the repository
(`data/scan/{schema,validator,builder,rules,indicators,engine,cache,utils}.py`
and the `/scan` endpoint of `data/main.py`) into Lean 4 and settles the
frozen claims about it.

Modelling conventions:
* Table cells are `EVal`: an exact rational, positive or negative infinity,
  or NaN.  This mirrors IEEE float semantics for the operations the code
  actually performs (comparisons against NaN are false, nonzero/0 gives a
  signed infinity, 0/0 gives NaN), with real arithmetic replaced by exact
  rational arithmetic.
* A pandas DataFrame is a `Table`: a list of column names plus a list of
  rows; every row carries one value per column.
* Rule trees arriving as JSON are `JVal` values with integer numbers
  (the wire format of section 6 of the spec passes integer parameters;
  float-valued, boolean and null parameters are outside the model).
* Python raising is `Except String`; the string is an abbreviated message.
* `time.time()` is an explicit rational-valued `now` parameter.
* In-place DataFrame mutation (claim about the indicator pipeline) is
  modelled by an explicit store: a list of tables indexed by references.
-/

/-- A float cell value: finite rational, +inf, -inf, or NaN. -/
inductive EVal where
  | fin (q : ℚ)
  | pinf
  | ninf
  | nan
deriving DecidableEq, Repr

/-- pd.isna on a scalar. -/
def eisna : EVal → Bool
  | .nan => true
  | _ => false

/-- IEEE-style negation. -/
def eneg : EVal → EVal
  | .fin q => .fin (-q)
  | .pinf => .ninf
  | .ninf => .pinf
  | .nan => .nan

/-- IEEE-style addition (NaN absorbing, inf + -inf = NaN). -/
def eadd : EVal → EVal → EVal
  | .nan, _ => .nan
  | _, .nan => .nan
  | .fin a, .fin b => .fin (a + b)
  | .fin _, .pinf => .pinf
  | .pinf, .fin _ => .pinf
  | .fin _, .ninf => .ninf
  | .ninf, .fin _ => .ninf
  | .pinf, .pinf => .pinf
  | .ninf, .ninf => .ninf
  | .pinf, .ninf => .nan
  | .ninf, .pinf => .nan

/-- IEEE-style subtraction. -/
def esub (a b : EVal) : EVal := eadd a (eneg b)

/-- IEEE-style multiplication (0 * inf = NaN). -/
def emul : EVal → EVal → EVal
  | .nan, _ => .nan
  | _, .nan => .nan
  | .fin a, .fin b => .fin (a * b)
  | .fin a, .pinf => if a = 0 then .nan else if 0 < a then .pinf else .ninf
  | .pinf, .fin a => if a = 0 then .nan else if 0 < a then .pinf else .ninf
  | .fin a, .ninf => if a = 0 then .nan else if 0 < a then .ninf else .pinf
  | .ninf, .fin a => if a = 0 then .nan else if 0 < a then .ninf else .pinf
  | .pinf, .pinf => .pinf
  | .ninf, .ninf => .pinf
  | .pinf, .ninf => .ninf
  | .ninf, .pinf => .ninf

/-- IEEE-style division, as numpy performs it elementwise: a nonzero
finite value divided by zero is a signed infinity, 0/0 is NaN, and a
finite value divided by an infinity is 0. -/
def ediv : EVal → EVal → EVal
  | .nan, _ => .nan
  | _, .nan => .nan
  | .fin a, .fin b =>
    if b = 0 then (if a = 0 then .nan else if 0 < a then .pinf else .ninf)
    else .fin (a / b)
  | .fin _, .pinf => .fin 0
  | .fin _, .ninf => .fin 0
  | .pinf, .fin b => if 0 ≤ b then .pinf else .ninf
  | .ninf, .fin b => if 0 ≤ b then .ninf else .pinf
  | .pinf, .pinf => .nan
  | .pinf, .ninf => .nan
  | .ninf, .pinf => .nan
  | .ninf, .ninf => .nan

/-- IEEE-style absolute value. -/
def eabs : EVal → EVal
  | .fin q => .fin |q|
  | .pinf => .pinf
  | .ninf => .pinf
  | .nan => .nan

/-- Strict less-than; any comparison involving NaN is false. -/
def elt : EVal → EVal → Bool
  | .nan, _ => false
  | _, .nan => false
  | .fin a, .fin b => a < b
  | .fin _, .pinf => true
  | .pinf, .fin _ => false
  | .ninf, .fin _ => true
  | .fin _, .ninf => false
  | .pinf, .pinf => false
  | .ninf, .ninf => false
  | .ninf, .pinf => true
  | .pinf, .ninf => false

/-- Non-strict less-or-equal; any comparison involving NaN is false. -/
def ele : EVal → EVal → Bool
  | .nan, _ => false
  | _, .nan => false
  | .fin a, .fin b => a ≤ b
  | .fin _, .pinf => true
  | .pinf, .fin _ => false
  | .ninf, .fin _ => true
  | .fin _, .ninf => false
  | .pinf, .pinf => true
  | .ninf, .ninf => true
  | .ninf, .pinf => true
  | .pinf, .ninf => false

/-- Strict greater-than. -/
def egt (a b : EVal) : Bool := elt b a

/-- Series.clip(lower=0) on one cell. -/
def clipLower0 : EVal → EVal
  | .fin q => .fin (max q 0)
  | .pinf => .pinf
  | .ninf => .fin 0
  | .nan => .nan

/-- Series.clip(upper=0) on one cell. -/
def clipUpper0 : EVal → EVal
  | .fin q => .fin (min q 0)
  | .pinf => .fin 0
  | .ninf => .ninf
  | .nan => .nan

/-- A pandas DataFrame: named columns over a list of rows.  Row `i` holds
the value of column `j` at position `j`.  Every row of a well-formed
DataFrame has exactly one value per column. -/
structure Table where
  cols : List String
  rows : List (List EVal)
deriving DecidableEq, Repr

/-- Column membership test, `c in df.columns`. -/
def Table.hasCol (t : Table) (c : String) : Bool := t.cols.contains c

/-- Index of a column name. -/
def Table.findCol (t : Table) (c : String) : Option ℕ :=
  t.cols.findIdx? (fun x => x == c)

/-- Value of column `j` in a row.  A DataFrame row always has a value for
every column; the `.nan` fallback is unreachable for well-formed tables. -/
def rowCell (r : List EVal) (j : ℕ) : EVal := r.getD j .nan

/-- A whole column as a list of cells, `df[c]`, if the column exists. -/
def Table.getCol (t : Table) (c : String) : Option (List EVal) :=
  (t.findCol c).map (fun j => t.rows.map (fun r => rowCell r j))

/-- Number of rows, `len(df)`. -/
def Table.nrows (t : Table) : ℕ := t.rows.length

/-- Column assignment `df[c] = vals`: replaces the column if the name
exists, otherwise appends a new column on the right (pandas semantics for
assigning a full aligned column). -/
def Table.assign (t : Table) (c : String) (vals : List EVal) : Table :=
  match t.findCol c with
  | some j => { cols := t.cols, rows := t.rows.zipWith (fun r v => r.set j v) vals }
  | none => { cols := t.cols ++ [c], rows := t.rows.zipWith (fun r v => r ++ [v]) vals }

/-- Sum of a list of cells starting from 0 (NaN absorbing). -/
def esum (xs : List EVal) : EVal := xs.foldl eadd (.fin 0)

/-- Arithmetic mean of a window of `p` cells. -/
def windowMean (p : ℕ) (xs : List EVal) : EVal := ediv (esum xs) (.fin p)

/-- Series.rolling(p).mean(): position `i` averages the `p` cells ending
at `i`; the first `p - 1` positions, and any window containing NaN, give
NaN.  (pandas rejects `p = 0` upstream with a ValueError; that case is
never reached from the embedded callers used in the theorems.) -/
def rollingMean (p : ℕ) (xs : List EVal) : List EVal :=
  (List.range xs.length).map
    (fun i => if i + 1 < p then .nan else windowMean p ((xs.take (i + 1)).drop (i + 1 - p)))

/-- Series.diff(): first position NaN, then successive differences. -/
def diffSeries (xs : List EVal) : List EVal :=
  match xs with
  | [] => []
  | _ :: tail => .nan :: List.zipWith esub tail xs

/-- Series.ewm(span, adjust=False).mean(), seeded from the first observed
value: `y0 = x0`, `y(i) = (1-a)*y(i-1) + a*x(i)` with `a = 2/(span+1)`.
A non-finite input cell yields NaN at that position and leaves the running
mean unchanged; bar closes contain no NaN (spec section 3), so that branch
is unexercised by the theorems. -/
def ewmGo (a : ℚ) : Option ℚ → List EVal → List EVal
  | _, [] => []
  | none, x :: rest =>
    match x with
    | .fin q => .fin q :: ewmGo a (some q) rest
    | _ => .nan :: ewmGo a none rest
  | some m, x :: rest =>
    match x with
    | .fin q => let y := (1 - a) * m + a * q; .fin y :: ewmGo a (some y) rest
    | _ => .nan :: ewmGo a (some m) rest

/-- Exponential moving average of a series with smoothing span `span`. -/
def ewmMean (span : ℕ) (xs : List EVal) : List EVal :=
  ewmGo (2 / ((span : ℚ) + 1)) none xs

/-- indicators.add_sma, table-level effect: `df[f"SMA_{period}"] =
df["close"].rolling(period).mean(); return df`.  Unlike the other three
indicator functions it performs no existence check and always recomputes.
Raises KeyError if the close column is absent. -/
def add_sma (df : Table) (period : ℕ) : Except String Table :=
  match df.getCol "close" with
  | none => .error "KeyError: close"
  | some closes => .ok (df.assign ("SMA_" ++ toString period) (rollingMean period closes))

/-- indicators.add_ema, table-level effect: writes `ema_<length>` unless
that column already exists. -/
def add_ema (df : Table) (length : ℕ) : Except String Table :=
  let col := "ema_" ++ toString length
  if df.hasCol col then .ok df
  else
    match df.getCol "close" with
    | none => .error "KeyError: close"
    | some closes => .ok (df.assign col (ewmMean length closes))

/-- Rolling average gain over `length` bars, as computed inside add_rsi:
`delta.clip(lower=0)` then `rolling(length).mean()`. -/
def avgGainSeries (length : ℕ) (closes : List EVal) : List EVal :=
  rollingMean length ((diffSeries closes).map clipLower0)

/-- Rolling average loss over `length` bars, as computed inside add_rsi:
`-delta.clip(upper=0)` then `rolling(length).mean()`. -/
def avgLossSeries (length : ℕ) (closes : List EVal) : List EVal :=
  rollingMean length ((diffSeries closes).map (fun d => eneg (clipUpper0 d)))

/-- The RSI column values computed by add_rsi:
`rs = avg_gain / avg_loss; rsi = 100 - 100 / (1 + rs)` elementwise. -/
def rsiSeries (length : ℕ) (closes : List EVal) : List EVal :=
  (List.zipWith ediv (avgGainSeries length closes) (avgLossSeries length closes)).map
    (fun rs => esub (.fin 100) (ediv (.fin 100) (eadd (.fin 1) rs)))

/-- indicators.add_rsi, table-level effect: writes `rsi_<length>` unless
that column already exists. -/
def add_rsi (df : Table) (length : ℕ) : Except String Table :=
  let col := "rsi_" ++ toString length
  if df.hasCol col then .ok df
  else
    match df.getCol "close" with
    | none => .error "KeyError: close"
    | some closes => .ok (df.assign col (rsiSeries length closes))

/-- indicators.add_macd, table-level effect: writes `macd_<fast>_<slow>`,
`macd_signal_<signal>` and `macd_hist` unless the macd column exists. -/
def add_macd (df : Table) (fast slow signal : ℕ) : Except String Table :=
  let macd_col := "macd_" ++ toString fast ++ "_" ++ toString slow
  let signal_col := "macd_signal_" ++ toString signal
  let hist_col := "macd_hist"
  if df.hasCol macd_col then .ok df
  else
    match df.getCol "close" with
    | none => .error "KeyError: close"
    | some closes =>
      let ema_fast := ewmMean fast closes
      let ema_slow := ewmMean slow closes
      let macd_line := List.zipWith esub ema_fast ema_slow
      let signal_line := ewmMean signal macd_line
      let hist := List.zipWith esub macd_line signal_line
      .ok (((df.assign macd_col macd_line).assign signal_col signal_line).assign hist_col hist)

/-- A mutable heap of DataFrames; a Python variable holding a DataFrame is
a reference (an index) into the store. -/
abbrev Store := List Table

/-- Dereference a table.  Out-of-range references never arise in the
theorems; they read as an empty table. -/
def readTable (σ : Store) (r : ℕ) : Table := σ.getD r { cols := [], rows := [] }

/-- indicators.add_sma as called: mutates the DataFrame the argument
reference points to, and returns that same reference. -/
def add_sma_inplace (σ : Store) (r : ℕ) (period : ℕ) : Except String (Store × ℕ) :=
  match add_sma (readTable σ r) period with
  | .error e => .error e
  | .ok t2 => .ok (σ.set r t2, r)

/-- indicators.add_ema as called: in-place on the store. -/
def add_ema_inplace (σ : Store) (r : ℕ) (length : ℕ) : Except String (Store × ℕ) :=
  match add_ema (readTable σ r) length with
  | .error e => .error e
  | .ok t2 => .ok (σ.set r t2, r)

/-- indicators.add_rsi as called: in-place on the store. -/
def add_rsi_inplace (σ : Store) (r : ℕ) (length : ℕ) : Except String (Store × ℕ) :=
  match add_rsi (readTable σ r) length with
  | .error e => .error e
  | .ok t2 => .ok (σ.set r t2, r)

/-- indicators.add_macd as called: in-place on the store. -/
def add_macd_inplace (σ : Store) (r : ℕ) (fast slow signal : ℕ) : Except String (Store × ℕ) :=
  match add_macd (readTable σ r) fast slow signal with
  | .error e => .error e
  | .ok t2 => .ok (σ.set r t2, r)

/-- The indicator configuration of a scan request: section 6 wire format
`\x7b"sma": [int...], "ema": [int...], "rsi": [int...],
"macd": [[fast,slow,signal]...]\x7d`, every key optional (an absent key
reads as the empty list, exactly as `config.get(k, [])` does). -/
structure IndicatorConfig where
  sma : List ℕ := []
  ema : List ℕ := []
  rsi : List ℕ := []
  macd : List (ℕ × ℕ × ℕ) := []
deriving DecidableEq, Repr

/-- engine.apply_indicators: returns the input untouched when it is
empty, otherwise works on a copy (so the pure reading is exact) and folds
the four indicator families over it in order. -/
def apply_indicators (df : Table) (config : IndicatorConfig) : Except String Table :=
  if df.rows.isEmpty then .ok df
  else do
    let df ← config.sma.foldlM (fun d p => add_sma d p) df
    let df ← config.ema.foldlM (fun d p => add_ema d p) df
    let df ← config.rsi.foldlM (fun d p => add_rsi d p) df
    let df ← config.macd.foldlM (fun d t => add_macd d t.1 t.2.1 t.2.2) df
    pure df

/-- utils.required_bars: running maximum of all configured periods (slow
period for MACD triples), starting from 0, plus a buffer of 5. -/
def required_bars (indicator_config : IndicatorConfig) : ℕ :=
  let bars := indicator_config.sma.foldl (fun b p => max b p) 0
  let bars := indicator_config.ema.foldl (fun b p => max b p) bars
  let bars := indicator_config.rsi.foldl (fun b p => max b p) bars
  let bars := indicator_config.macd.foldl (fun b t => max b t.2.1) bars
  bars + 5

/-- The minimum-bars threshold the `/scan` endpoint actually passes to
run_scan (`data/main.py`): `max(required_bars(indicators), 50)`. -/
def scan_min_bars (indicators : IndicatorConfig) : ℕ :=
  max (required_bars indicators) 50

/-- Comma-joined rendering of string fragments (helper for the canonical
representations below). -/
def joinComma : List String → String
  | [] => ""
  | [x] => x
  | x :: y :: rest => x ++ "," ++ joinComma (y :: rest)

/-- Canonical text of a list of periods, as the tuple repr hashed by
cache._hash_config. -/
def reprPeriods (l : List ℕ) : String := "(" ++ joinComma (l.map toString) ++ ")"

/-- Canonical text of a list of MACD triples. -/
def reprTriples (l : List (ℕ × ℕ × ℕ)) : String :=
  "(" ++ joinComma (l.map (fun t =>
    "(" ++ toString t.1 ++ "," ++ toString t.2.1 ++ "," ++ toString t.2.2 ++ ")")) ++ ")"

/-- cache._hash_config: a stable digest of the indicator config, produced
in the source by md5-hashing the repr of the key-sorted item list.  The
embedding keeps the hashed text itself (md5 is injective up to collisions
and two equal configs hash equally either way).  An entirely empty config
reads as the literal "no-indicators" sentinel, as `if not config` does for
an empty dict. -/
def _hash_config (config : IndicatorConfig) : String :=
  if config = {} then "no-indicators"
  else
    "ema:" ++ reprPeriods config.ema ++ ";macd:" ++ reprTriples config.macd ++
    ";rsi:" ++ reprPeriods config.rsi ++ ";sma:" ++ reprPeriods config.sma

/-- cache.make_cache_key: `f"\x7bsymbol\x7d|\x7btf\x7d|\x7bcfg_hash\x7d"`. -/
def make_cache_key (symbol tf : String) (indicator_config : IndicatorConfig) : String :=
  symbol ++ "|" ++ tf ++ "|" ++ _hash_config indicator_config

/-- Python dict assignment `d[k] = v` on an association list: replaces the
value of an existing key, otherwise appends the binding. -/
def dictInsert {α : Type} (l : List (String × α)) (k : String) (v : α) : List (String × α) :=
  if l.any (fun p => p.1 == k) then l.map (fun p => if p.1 == k then (k, v) else p)
  else l ++ [(k, v)]

/-- Python `d.pop(k, None)`: the dict with the key removed. -/
def dictErase {α : Type} (l : List (String × α)) (k : String) : List (String × α) :=
  l.filter (fun p => p.1 != k)

/-- The module-level cache state of cache.py: `_CACHE` and `_CACHE_TS`. -/
structure CacheState where
  cache : List (String × Table)
  cacheTs : List (String × ℚ)
deriving DecidableEq, Repr

/-- cache.DEFAULT_TTL = 60 * 30 seconds. -/
def DEFAULT_TTL : ℚ := 60 * 30

/-- cache.get_cached at wall-clock time `now`: a missing key is a miss; a
key older than the TTL is popped from both dicts and is a miss; otherwise
the stored table itself is returned. -/
def get_cached (st : CacheState) (now : ℚ) (symbol tf : String)
    (indicator_config : IndicatorConfig) : Option Table × CacheState :=
  let key := make_cache_key symbol tf indicator_config
  match st.cache.lookup key with
  | none => (none, st)
  | some df =>
    let ts := (st.cacheTs.lookup key).getD 0
    if now - ts > DEFAULT_TTL then
      (none, { cache := dictErase st.cache key, cacheTs := dictErase st.cacheTs key })
    else (some df, st)

/-- cache.set_cache at wall-clock time `now`: stores the table and its
insertion time under the derived key. -/
def set_cache (st : CacheState) (now : ℚ) (symbol tf : String)
    (indicator_config : IndicatorConfig) (df : Table) : CacheState :=
  let key := make_cache_key symbol tf indicator_config
  { cache := dictInsert st.cache key df, cacheTs := dictInsert st.cacheTs key now }

/-- A JSON value as the rule endpoints receive it: object, array, integer
or string (see the file header for the scope of the number model). -/
inductive JVal where
  | num (n : ℤ)
  | str (s : String)
  | arr (xs : List JVal)
  | obj (fields : List (String × JVal))

/-- First binding of a key in a JSON object (Python dict keys are unique,
so first is only). -/
def jLookup : List (String × JVal) → String → Option JVal
  | [], _ => none
  | (k, v) :: rest, key => if k = key then some v else jLookup rest key

/-- Python `key in rule` on an object. -/
def hasKey (fields : List (String × JVal)) (key : String) : Bool :=
  (jLookup fields key).isSome

theorem jLookup_sizeOf {fields : List (String × JVal)} {k : String} {v : JVal}
    (h : jLookup fields k = some v) : sizeOf v < sizeOf fields := by
  induction fields with
  | nil => simp [jLookup] at h
  | cons hd tl ih =>
    obtain ⟨k', v'⟩ := hd
    simp only [jLookup] at h
    split at h
    · cases h; simp; omega
    · have := ih h; simp; omega

/-- schema.RULE_DEFINITIONS: the validator's registry, rule name to
required and optional parameter names. -/
def RULE_DEFINITIONS : List (String × (List String × List String)) :=
  [("close_near_sma", (["period"], ["tolerance"])),
   ("rising_ma", (["ma"], ["lookback"])),
   ("crossing_up", (["ma"], [])),
   ("rsi_above", (["rsi", "level"], [])),
   ("close_above_open", ([], []))]

mutual
/-- validator.validate_rule: raises (returns an error) on a rule tree the
structural schema rejects, returns unit on acceptance.  AND/OR recurse;
a leaf object must have exactly one key, a registered name, an object
config, all required parameters and no parameter outside
required + optional. -/
def validate_rule : JVal → Except String Unit
  | .obj fields =>
    if hasKey fields "AND" || hasKey fields "OR" then
      let key := if hasKey fields "AND" then "AND" else "OR"
      match h : jLookup fields key with
      | some (.arr xs) =>
        if xs.isEmpty then .error (key ++ " must be a non-empty list")
        else validateRules xs
      | _ => .error (key ++ " must be a non-empty list")
    else
      match fields with
      | [(name, cfg)] =>
        match RULE_DEFINITIONS.lookup name with
        | none => .error ("Unknown rule: " ++ name)
        | some schema =>
          match cfg with
          | .obj cfgFields =>
            if schema.1.all (fun k => hasKey cfgFields k) then
              if cfgFields.all (fun kv => (schema.1 ++ schema.2).contains kv.1) then .ok ()
              else .error ("Invalid key in " ++ name)
            else .error ("Missing required in " ++ name)
          | _ => .error ("Rule config must be object for " ++ name)
      | _ => .error "Invalid rule format"
  | _ => .error "Rule must be an object"
termination_by j => sizeOf j
decreasing_by
  simp_wf
  have h1 := jLookup_sizeOf h
  have h2 := JVal.arr.sizeOf_spec xs
  omega

/-- Validation of the children of an AND/OR node, in order, first error
propagating. -/
def validateRules : List JVal → Except String Unit
  | [] => .ok ()
  | r :: rs =>
    match validate_rule r with
    | .error e => .error e
    | .ok _ => validateRules rs
termination_by l => sizeOf l
decreasing_by
  all_goals simp_wf <;> omega
end

mutual
/-- Text a JSON value contributes inside an f-string (Python `str(x)`).
Numbers and strings render exactly; containers render in a simplified
repr (without the quote marks Python would put around nested strings),
which only ever feeds into column names that no real indicator column can
collide with. -/
def jFmt : JVal → String
  | .num n => toString n
  | .str s => s
  | .arr xs => "[" ++ joinComma (jFmtList xs) ++ "]"
  | .obj fs => "\x7b" ++ joinComma (jFmtFields fs) ++ "\x7d"

/-- Rendering of array elements. -/
def jFmtList : List JVal → List String
  | [] => []
  | x :: xs => jFmt x :: jFmtList xs

/-- Rendering of object fields. -/
def jFmtFields : List (String × JVal) → List String
  | [] => []
  | (k, v) :: fs => (k ++ ": " ++ jFmt v) :: jFmtFields fs
end

/-- Python `cfg[key]`: KeyError on a dict without the key, TypeError when
the config is not subscriptable by a string. -/
def jGet (cfg : JVal) (key : String) : Except String JVal :=
  match cfg with
  | .obj fs =>
    match jLookup fs key with
    | some v => .ok v
    | none => .error ("KeyError: " ++ key)
  | _ => .error "TypeError: not subscriptable"

/-- Python `cfg.get(key, default)` on an object (the callers only reach
this after a successful `cfg[...]`, so the config is an object). -/
def jGetD (cfg : JVal) (key : String) (default : JVal) : JVal :=
  match cfg with
  | .obj fs => (jLookup fs key).getD default
  | _ => default

/-- builder.sma_col: `f"SMA_\x7bperiod\x7d"`.  The int annotation of the
source is not enforced by Python, so the resolver takes any JSON value. -/
def sma_col (period : JVal) : String := "SMA_" ++ jFmt period

/-- builder.ema_col: `f"EMA_\x7bperiod\x7d"`. -/
def ema_col (period : JVal) : String := "EMA_" ++ jFmt period

/-- builder.rsi_col: `f"RSI_\x7bperiod\x7d"`. -/
def rsi_col (period : JVal) : String := "RSI_" ++ jFmt period

/-- builder.macd_cols: `(f"MACD_\x7bbase\x7d", f"MACD_SIGNAL_\x7bbase\x7d")`
with `base = f"\x7bfast\x7d_\x7bslow\x7d_\x7bsignal\x7d"`. -/
def macd_cols (fast slow signal : JVal) : String × String :=
  let base := jFmt fast ++ "_" ++ jFmt slow ++ "_" ++ jFmt signal
  ("MACD_" ++ base, "MACD_SIGNAL_" ++ base)

/-- A compiled predicate: the closure tree produced by builder.build_rule
out of the rule factories of rules.py (a leaf keeps the resolved column
name and the raw parameter values its closure captured). -/
inductive RuleFn where
  | pnear (ma_col : String) (tolerance_pct : JVal)
  | prising (ma_col : String) (lookback : JVal)
  | pcross (ma_col : String)
  | prsiAbove (rsi_col : String) (level : JVal)
  | prsiBelow (rsi_col : String) (level : JVal)
  | pand (ps : List RuleFn)
  | por (ps : List RuleFn)

/-- The leaf dispatch of builder.build_rule through builder.RULE_MAP
(near_sma, rising_sma, crossing_sma, rsi_above, rsi_below): each factory
resolves its column name from `cfg["period"]` and captures the raw
parameter values; an unknown name raises ValueError and a missing
`period`/`level` key raises KeyError out of the factory lambda. -/
def buildLeaf (rule_name : String) (cfg : JVal) : Except String RuleFn :=
  if rule_name = "near_sma" then
    match jGet cfg "period" with
    | .error e => .error e
    | .ok p => .ok (RuleFn.pnear (sma_col p) (jGetD cfg "tolerance_pct" (.num 1)))
  else if rule_name = "rising_sma" then
    match jGet cfg "period" with
    | .error e => .error e
    | .ok p => .ok (RuleFn.prising (sma_col p) (jGetD cfg "lookback" (.num 3)))
  else if rule_name = "crossing_sma" then
    match jGet cfg "period" with
    | .error e => .error e
    | .ok p => .ok (RuleFn.pcross (sma_col p))
  else if rule_name = "rsi_above" then
    match jGet cfg "period" with
    | .error e => .error e
    | .ok p =>
      match jGet cfg "level" with
      | .error e => .error e
      | .ok level => .ok (RuleFn.prsiAbove (rsi_col p) level)
  else if rule_name = "rsi_below" then
    match jGet cfg "period" with
    | .error e => .error e
    | .ok p =>
      match jGet cfg "level" with
      | .error e => .error e
      | .ok level => .ok (RuleFn.prsiBelow (rsi_col p) level)
  else .error ("Unknown rule: " ++ rule_name)

theorem jLookup_option_sizeOf (fields : List (String × JVal)) (k : String) :
    sizeOf (jLookup fields k) < 1 + sizeOf fields := by
  cases h : jLookup fields k with
  | none => simp; cases fields <;> simp <;> omega
  | some v => have := jLookup_sizeOf h; simp; omega

mutual
/-- builder.build_rule: compiles a rule tree into a predicate, raising
(returning an error) on non-dict input, a malformed leaf, or a leaf name
missing from builder.RULE_MAP.  The list comprehension over
`rule_json["AND"]` / `rule_json["OR"]` is split into
`buildJunctionChildren`. -/
def build_rule : JVal → Except String RuleFn
  | .obj fields =>
    if hasKey fields "AND" then
      (buildJunctionChildren (jLookup fields "AND")).map RuleFn.pand
    else if hasKey fields "OR" then
      (buildJunctionChildren (jLookup fields "OR")).map RuleFn.por
    else
      match fields with
      | [(rule_name, cfg)] => buildLeaf rule_name cfg
      | _ => .error "Invalid rule structure"
  | _ => .error "Rule must be a dictionary"
termination_by j => sizeOf j
decreasing_by
  all_goals
    simp_wf
    exact jLookup_option_sizeOf _ _

/-- Iteration of `[build_rule(r) for r in v]` over the value found under
an AND/OR key.  A list iterates its elements; a non-empty dict or string
iterates to a first element that is a plain string, which fails the
isinstance-dict check of the recursive call — written here directly as
that error; an empty dict or string iterates to no children at all; an
integer (or a missing key, unreachable after the `in` check) is not
iterable. -/
def buildJunctionChildren : Option JVal → Except String (List RuleFn)
  | some (.arr xs) => buildRules xs
  | some (.obj fs) => if fs.isEmpty then .ok [] else .error "Rule must be a dictionary"
  | some (.str s) => if s.isEmpty then .ok [] else .error "Rule must be a dictionary"
  | some (.num _) => .error "TypeError: not iterable"
  | none => .error "TypeError: not iterable"
termination_by o => sizeOf o
decreasing_by
  simp_wf
  omega

/-- Compilation of the children of an AND/OR node, in order, first error
propagating (the list comprehension of the source). -/
def buildRules : List JVal → Except String (List RuleFn)
  | [] => .ok []
  | r :: rs =>
    match build_rule r with
    | .error e => .error e
    | .ok p =>
      match buildRules rs with
      | .error e => .error e
      | .ok ps => .ok (p :: ps)
termination_by l => sizeOf l
decreasing_by
  all_goals simp_wf <;> omega
end

/-- rules._last: the final row, None on an empty table. -/
def _last (df : Table) : Option (List EVal) :=
  if df.rows.length < 1 then none else df.rows.getLast?

/-- rules._prev: the second-to-last row, None below two rows. -/
def _prev (df : Table) : Option (List EVal) :=
  if df.rows.length < 2 then none else df.rows.dropLast.getLast?

/-- Scalar access `row[c]` on a row of `df`: KeyError when the column
name does not exist. -/
def rowVal (df : Table) (row : List EVal) (c : String) : Except String EVal :=
  match df.findCol c with
  | none => .error ("KeyError: " ++ c)
  | some j => .ok (rowCell row j)

/-- Python `x <= tol` for a float `x` and a JSON-typed tolerance: a
number compares numerically, anything else raises TypeError. -/
def jCompareLe (x : EVal) (tol : JVal) : Except String Bool :=
  match tol with
  | .num n => .ok (ele x (.fin n))
  | _ => .error "TypeError: comparison"

/-- Python `x > level` for a float `x` and a JSON-typed level. -/
def jCompareGt (x : EVal) (level : JVal) : Except String Bool :=
  match level with
  | .num n => .ok (egt x (.fin n))
  | _ => .error "TypeError: comparison"

/-- Python `x < level` for a float `x` and a JSON-typed level. -/
def jCompareLt (x : EVal) (level : JVal) : Except String Bool :=
  match level with
  | .num n => .ok (elt x (.fin n))
  | _ => .error "TypeError: comparison"

/-- DataFrame.tail(n): the last `n` rows; `tail(0)` is empty; a negative
`n` drops the first `|n|` rows. -/
def tailList {α : Type} (xs : List α) (n : ℤ) : List α :=
  if n = 0 then []
  else if n < 0 then xs.drop (-n).toNat
  else xs.drop (xs.length - n.toNat)

/-- Adjacent-pairs strict increase, `all(r[i] > r[i-1] for i in 1..)`;
an empty or singleton window is vacuously true. -/
def pairwiseGt (xs : List EVal) : Bool :=
  (List.zipWith (fun a b => egt b a) xs xs.tail).all (fun x => x)

/-- rules.near_ma: price within tolerance_pct of the MA column at the
last row; false on an empty table, a missing column, a NaN or zero MA. -/
def near_ma (ma_col : String) (tolerance_pct : JVal) (df : Table) : Except String Bool :=
  match _last df with
  | none => .ok false
  | some last =>
    if !df.hasCol ma_col then .ok false
    else
      match rowVal df last ma_col with
      | .error e => .error e
      | .ok ma =>
        if eisna ma || ma == .fin 0 then .ok false
        else
          match rowVal df last "close" with
          | .error e => .error e
          | .ok price =>
            jCompareLe (emul (ediv (eabs (esub price ma)) ma) (.fin 100)) tolerance_pct

/-- rules.rising_ma: the MA column strictly increases over the last
`lookback + 1` rows with no NaN in that window; false on a missing column
or insufficient rows. -/
def rising_ma (ma_col : String) (lookback : JVal) (df : Table) : Except String Bool :=
  if !df.hasCol ma_col then .ok false
  else
    match lookback with
    | .num lb =>
      if (df.rows.length : ℤ) < lb + 1 then .ok false
      else
        let recent := tailList ((df.getCol ma_col).getD []) (lb + 1)
        if recent.any eisna then .ok false
        else .ok (pairwiseGt recent)
    | _ => .error "TypeError: unsupported operand"

/-- rules.crossing_up: previous close below previous MA and last close
above last MA; false below two rows, on a missing column, or NaN MA. -/
def crossing_up (ma_col : String) (df : Table) : Except String Bool :=
  match _last df, _prev df with
  | some last, some prev =>
    if !df.hasCol ma_col then .ok false
    else
      match rowVal df last ma_col, rowVal df prev ma_col with
      | .ok lma, .ok pma =>
        if eisna lma || eisna pma then .ok false
        else
          match rowVal df prev "close", rowVal df last "close" with
          | .ok pclose, .ok lclose => .ok (elt pclose pma && egt lclose lma)
          | .error e, _ => .error e
          | _, .error e => .error e
      | .error e, _ => .error e
      | _, .error e => .error e
  | _, _ => .ok false

/-- rules.rsi_above: last value of the RSI column strictly above the
level; false on an empty table or a missing column (and on NaN, since a
NaN comparison is false). -/
def rsi_above (rsi_col : String) (level : JVal) (df : Table) : Except String Bool :=
  match _last df with
  | none => .ok false
  | some last =>
    if !df.hasCol rsi_col then .ok false
    else
      match rowVal df last rsi_col with
      | .error e => .error e
      | .ok v => jCompareGt v level

/-- rules.rsi_below: last value of the RSI column strictly below the
level. -/
def rsi_below (rsi_col : String) (level : JVal) (df : Table) : Except String Bool :=
  match _last df with
  | none => .ok false
  | some last =>
    if !df.hasCol rsi_col then .ok false
    else
      match rowVal df last rsi_col with
      | .error e => .error e
      | .ok v => jCompareLt v level

mutual
/-- Evaluation of a compiled predicate on a table: dispatches each leaf
closure to its rules.py body; rules.AND and rules.OR evaluate their
children with Python's short-circuiting `all` / `any`. -/
def evalRule : RuleFn → Table → Except String Bool
  | .pnear ma_col tol, df => near_ma ma_col tol df
  | .prising ma_col lb, df => rising_ma ma_col lb df
  | .pcross ma_col, df => crossing_up ma_col df
  | .prsiAbove rsi_col level, df => rsi_above rsi_col level df
  | .prsiBelow rsi_col level, df => rsi_below rsi_col level df
  | .pand ps, df => evalAnd ps df
  | .por ps, df => evalOr ps df

/-- rules.AND body: `all(rule(df) for rule in rules)`. -/
def evalAnd : List RuleFn → Table → Except String Bool
  | [], _ => .ok true
  | p :: ps, df =>
    match evalRule p df with
    | .error e => .error e
    | .ok b => if b then evalAnd ps df else .ok false

/-- rules.OR body: `any(rule(df) for rule in rules)`. -/
def evalOr : List RuleFn → Table → Except String Bool
  | [], _ => .ok false
  | p :: ps, df =>
    match evalRule p df with
    | .error e => .error e
    | .ok b => if b then .ok true else evalOr ps df
end

/-- One daily OHLCV bar.  The date is a day number (an integer count of
days with day 0 falling on a Monday; consecutive integers are consecutive
calendar days).  Spec section 3: bar values are plain numbers, dates
strictly increase. -/
structure BarRow where
  date : ℤ
  opn : ℚ
  high : ℚ
  low : ℚ
  close : ℚ
  volume : ℚ
deriving DecidableEq, Repr

/-- The ISO (year, week) key of a day, modelled by the index of its
Monday-aligned 7-day block.  ISO weeks partition the day line into exactly
these blocks and the lexicographic order on (ISO year, ISO week) pairs
coincides with the chronological order of the blocks, so the single
integer is a faithful, order-preserving stand-in for the pair that
`df.index.isocalendar()` produces. -/
def isoWeekKey (d : ℤ) : ℤ := Int.ediv d 7

/-- `pd.Timestamp.fromisocalendar(y, w, 5)`: the Friday (ISO weekday 5)
of the ISO week denoted by block `w`, day 4 of the Monday-aligned block. -/
def fridayOfWeek (w : ℤ) : ℤ := 7 * w + 4

/-- OHLCV aggregation of one non-empty group, exactly the `.agg` dict of
the source: open=first, high=max, low=min, close=last, volume=sum, stamped
with the supplied output date. -/
def aggGroup (stamp : ℤ) : List BarRow → Option BarRow
  | [] => none
  | r :: rs =>
    some { date := stamp
           opn := r.opn
           high := rs.foldl (fun m x => max m x.high) r.high
           low := rs.foldl (fun m x => min m x.low) r.low
           close := (rs.foldl (fun _ x => x) r).close
           volume := rs.foldl (fun s x => s + x.volume) r.volume }

/-- Insertion into a sorted duplicate-free list of keys: the sorted
unique group keys a pandas groupby iterates in ascending order. -/
def insertKey (x : ℤ) : List ℤ → List ℤ
  | [] => [x]
  | y :: ys => if x < y then x :: y :: ys else if x = y then y :: ys else y :: insertKey x ys

/-- Sorted unique keys of a list. -/
def sortedKeys (l : List ℤ) : List ℤ := l.foldr insertKey []

/-- The "1W" branch of engine.get_tf_candles: group the rows by ISO
(year, week), aggregate OHLCV per group, stamp each output row with the
Friday of its week, and dropna (the aggregates of NaN-free bars are
NaN-free, so the dropna of the source removes nothing here).  Groups are
emitted in pandas groupby order: ascending by key, each group holding its
rows in original order. -/
def weekly_candles (rows : List BarRow) : List BarRow :=
  (sortedKeys (rows.map (fun r => isoWeekKey r.date))).filterMap
    (fun w => aggGroup (fridayOfWeek w)
      (rows.filter (fun r => isoWeekKey r.date == w)))

/-- Civil date (year, month, day) of a day number (proleptic Gregorian
calendar, Howard Hinnant's civil_from_days with the epoch shifted so that
day 0 is a Monday: day 0 here is 1970-01-05). -/
def civilFromDays (z : ℤ) : ℤ × ℤ × ℤ :=
  let z' := z + 719472
  let era := Int.ediv z' 146097
  let doe := z' - era * 146097
  let yoe := Int.ediv (doe - Int.ediv doe 1460 + Int.ediv doe 36524 - Int.ediv doe 146096) 365
  let y := yoe + era * 400
  let doy := doe - (365 * yoe + Int.ediv yoe 4 - Int.ediv yoe 100)
  let mp := Int.ediv (5 * doy + 2) 153
  let d := doy - Int.ediv (153 * mp + 2) 5 + 1
  let m := mp + (if mp < 10 then 3 else -9)
  (if m ≤ 2 then y + 1 else y, m, d)

/-- Day number of a civil date (inverse of `civilFromDays`). -/
def daysFromCivil (y m d : ℤ) : ℤ :=
  let y' := if m ≤ 2 then y - 1 else y
  let era := Int.ediv y' 400
  let yoe := y' - era * 400
  let mp := Int.emod (m + 9) 12
  let doy := Int.ediv (153 * mp + 2) 5 + d - 1
  let doe := yoe * 365 + Int.ediv yoe 4 - Int.ediv yoe 100 + doy
  era * 146097 + doe - 719472

/-- Calendar-month key of a day (months since year 0). -/
def monthKey (d : ℤ) : ℤ :=
  let c := civilFromDays d
  c.1 * 12 + (c.2.1 - 1)

/-- The last calendar day of the month denoted by a month key: the "ME"
resample label. -/
def lastDayOfMonth (k : ℤ) : ℤ :=
  daysFromCivil (Int.ediv (k + 1) 12) (Int.emod (k + 1) 12 + 1) 1 - 1

/-- The "1M" branch of engine.get_tf_candles: `resample("ME")` with the
same OHLCV aggregation and dropna.  The resampler's empty intermediate
months aggregate to all-NaN rows which dropna removes, so only the months
actually present produce output rows. -/
def monthly_candles (rows : List BarRow) : List BarRow :=
  (sortedKeys (rows.map (fun r => monthKey r.date))).filterMap
    (fun k => aggGroup (lastDayOfMonth k)
      (rows.filter (fun r => monthKey r.date == k)))

/-- engine.get_tf_candles: identity for an empty table or "1D", weekly
and monthly aggregation for "1W" / "1M", ValueError otherwise. -/
def get_tf_candles (df : List BarRow) (tf : String) : Except String (List BarRow) :=
  if df.isEmpty then .ok df
  else if tf == "1D" then .ok df
  else if tf == "1W" then .ok (weekly_candles df)
  else if tf == "1M" then .ok (monthly_candles df)
  else .error ("Unsupported timeframe: " ++ tf)

/-- Consecutive-run grouping of rows by their ISO week, the "manual
grouping by ISO (year, week)" of the spec's testable property: each run
of adjacent rows sharing a week key forms one group, keys paired with
their rows. -/
def chunkWeeks : List BarRow → List (ℤ × List BarRow)
  | [] => []
  | r :: rs =>
    match chunkWeeks rs with
    | [] => [(isoWeekKey r.date, [r])]
    | (w, g) :: rest =>
      if isoWeekKey r.date = w then (w, r :: g) :: rest
      else (isoWeekKey r.date, [r]) :: (w, g) :: rest

/-- Specification-side OHLCV aggregate of one group, phrased as the spec
phrases it: open = first, high = max, low = min, close = last,
volume = sum, stamped to the Friday of the ISO week. -/
def aggWeekSpec (w : ℤ) (g : List BarRow) : Option BarRow :=
  match g.head?, g.getLast? with
  | some hd, some lst =>
    some { date := fridayOfWeek w
           opn := hd.opn
           high := ((g.map (fun r => r.high)).max?).getD 0
           low := ((g.map (fun r => r.low)).min?).getD 0
           close := lst.close
           volume := (g.map (fun r => r.volume)).sum }
  | _, _ => none

/-- Specification-side weekly resampling: manual grouping by ISO
(year, week) in chronological order with the spec's aggregates. -/
def weeklyManual (rows : List BarRow) : List BarRow :=
  (chunkWeeks rows).filterMap (fun p => aggWeekSpec p.1 p.2)

/-- The collaborators run_scan drives, as state-passing operations over
an abstract state `σ` and an abstract table type `α` (cache, price store
and indicator pipeline are external effects from the orchestrator's point
of view; any of them may raise).  `nrows` gives `len(df)` and `empty`
tests `df.empty`. -/
structure ScanEnv (σ α : Type) where
  cacheGet : σ → String → String → IndicatorConfig → Except String (Option α) × σ
  load_prices : σ → String → Except String α × σ
  tfCandles : σ → α → String → Except String α × σ
  applyInd : σ → α → IndicatorConfig → Except String α × σ
  cacheSet : σ → String → String → IndicatorConfig → α → Except String Unit × σ
  rule_fn : σ → α → Except String Bool × σ
  nrows : α → ℕ

/-- The body of run_scan's per-symbol try block: cache lookup, then on a
miss load → empty-check → resample → min_bars check → indicators →
min_bars recheck → cache store, and finally the predicate; `.ok false`
with no further steps models the `continue` statements, an error models
an exception escaping to the except arm. -/
def processSymbol {σ α : Type} (E : ScanEnv σ α) (timeframe : String)
    (indicator_config : IndicatorConfig) (min_bars : ℕ) (s : σ) (symbol : String) :
    Except String Bool × σ :=
  match E.cacheGet s symbol timeframe indicator_config with
  | (.error e, s1) => (.error e, s1)
  | (.ok (some cached), s1) =>
    -- hit: df = cached.copy(), straight to the rule
    E.rule_fn s1 cached
  | (.ok none, s1) =>
    match E.load_prices s1 symbol with
    | (.error e, s2) => (.error e, s2)
    | (.ok df, s2) =>
      if E.nrows df = 0 then (.ok false, s2)
      else
        match E.tfCandles s2 df timeframe with
        | (.error e, s3) => (.error e, s3)
        | (.ok df2, s3) =>
          if E.nrows df2 < min_bars then (.ok false, s3)
          else
            match E.applyInd s3 df2 indicator_config with
            | (.error e, s4) => (.error e, s4)
            | (.ok df3, s4) =>
              if E.nrows df3 < min_bars then (.ok false, s4)
              else
                match E.cacheSet s4 symbol timeframe indicator_config df3 with
                | (.error e, s5) => (.error e, s5)
                | (.ok _, s5) => E.rule_fn s5 df3

/-- engine.run_scan: drives the per-symbol pipeline over the universe in
order, appending a symbol to the results exactly when its predicate
returned true; every per-symbol exception is caught by the
`except Exception` arm, logged and swallowed, so the function itself
always returns a result list. -/
def run_scan {σ α : Type} (E : ScanEnv σ α) (timeframe : String)
    (indicator_config : IndicatorConfig) (min_bars : ℕ) :
    σ → List String → List String × σ
  | s, [] => ([], s)
  | s, symbol :: rest =>
    match processSymbol E timeframe indicator_config min_bars s symbol with
    | (.ok true, s') =>
      let (tail, sf) := run_scan E timeframe indicator_config min_bars s' rest
      (symbol :: tail, sf)
    | (.ok false, s') => run_scan E timeframe indicator_config min_bars s' rest
    | (.error _, s') => run_scan E timeframe indicator_config min_bars s' rest

/-! ### General helper lemmas -/

theorem lookup_dictInsert {α : Type} (l : List (String × α)) (k : String) (v : α) :
    (dictInsert l k v).lookup k = some v := by
  induction l with
  | nil => simp [dictInsert, List.lookup]
  | cons hd tl ih =>
    obtain ⟨k', v'⟩ := hd
    by_cases hk : k' = k
    · subst hk
      simp [dictInsert, List.lookup]
    · have hbeq : (k' == k) = false := by simpa using hk
      have hbeq2 : (k == k') = false := by
        simpa using fun h => hk h.symm
      cases hany : tl.any (fun p => p.1 == k) with
      | true =>
        simp only [dictInsert, List.any_cons, hbeq, Bool.false_or, hany, if_true,
          List.map_cons, if_neg hk]
        simp only [List.lookup, hbeq2]
        have := ih
        simp only [dictInsert, hany, if_true] at this
        exact this
      | false =>
        simp only [dictInsert, List.any_cons, hbeq, Bool.false_or, hany, if_false,
          List.cons_append]
        simp only [List.lookup, hbeq2]
        have := ih
        simp only [dictInsert, hany, if_false] at this
        exact this

theorem lookup_dictErase {α : Type} (l : List (String × α)) (k : String) :
    (dictErase l k).lookup k = none := by
  induction l with
  | nil => simp [dictErase, List.lookup]
  | cons hd tl ih =>
    obtain ⟨k', v'⟩ := hd
    by_cases hk : k' = k
    · subst hk
      simpa [dictErase, List.lookup] using ih
    · have hbeq : (k' != k) = true := by simpa using hk
      have hbeq2 : (k == k') = false := by
        simpa using fun h => hk h.symm
      simp only [dictErase, List.filter_cons, hbeq, if_true, List.lookup, hbeq2]
      simpa [dictErase] using ih

theorem set_readTable_self (σ : Store) (r : ℕ) : σ.set r (readTable σ r) = σ := by
  induction σ generalizing r with
  | nil => simp
  | cons hd tl ih =>
    cases r with
    | zero => simp [readTable]
    | succ n =>
      simp only [List.set, readTable, List.getD]
      have := ih n
      simp only [readTable] at this
      simpa using this

theorem readTable_set_ne (σ : Store) (r r2 : ℕ) (t : Table) (h : r2 ≠ r) :
    readTable (σ.set r t) r2 = readTable σ r2 := by
  unfold readTable
  rw [List.getD_eq_getElem?_getD, List.getD_eq_getElem?_getD, List.getElem?_set_ne (by omega)]

theorem readTable_set_self (σ : Store) (r : ℕ) (t : Table) (h : r < σ.length) :
    readTable (σ.set r t) r = t := by
  unfold readTable
  rw [List.getD_eq_getElem?_getD, List.getElem?_set_self (by simpa using h)]
  rfl

theorem findIdx?_none_of_not_contains (l : List String) (c : String)
    (h : l.contains c = false) : l.findIdx? (fun x => x == c) = none := by
  induction l with
  | nil => simp
  | cons hd tl ih =>
    simp only [List.contains_cons, Bool.or_eq_false_iff] at h
    have hbeq : (hd == c) = false := by
      rcases h with ⟨h1, _⟩
      simpa [BEq.comm] using h1
    simp [List.findIdx?_cons, hbeq, ih h.2]

/-! ### C6: required_bars on the three worked examples -/

/-- C6: `required_bars` returns 55 for a lone SMA 50, 31 for a lone MACD
(12, 26, 9), and 5 for the empty configuration. -/
theorem c6_required_bars_examples :
    required_bars { sma := [50] } = 55 ∧
    required_bars { macd := [(12, 26, 9)] } = 31 ∧
    required_bars {} = 5 := by
  refine ⟨rfl, rfl, rfl⟩

/-! ### C5: the minimum-bars threshold used by a scan -/

/-- The largest configured SMA/EMA/RSI period or MACD slow period, the
quantity the claim's formula is phrased in. -/
def largestPeriod (c : IndicatorConfig) : ℕ :=
  (c.sma ++ c.ema ++ c.rsi ++ c.macd.map (fun t => t.2.1)).foldr max 0

/-- C5 counterexample: on the empty indicator config the scan threshold
computed by the endpoint is max(required_bars, 50) = 50, while the
claim's formula max(largest period, 50) + 5 gives 55. -/
theorem c5_counterexample :
    scan_min_bars {} = 50 ∧ max (largestPeriod {}) 50 + 5 = 55 ∧
    scan_min_bars {} ≠ max (largestPeriod {}) 50 + 5 := by
  refine ⟨rfl, rfl, by decide⟩

theorem foldl_max_eq (l : List ℕ) (acc : ℕ) :
    l.foldl (fun b p => max b p) acc = max acc (l.foldr max 0) := by
  induction l generalizing acc with
  | nil => simp
  | cons hd tl ih =>
    simp only [List.foldl_cons, List.foldr_cons, ih]
    omega

theorem foldr_max_acc (l : List ℕ) (acc : ℕ) :
    l.foldr max acc = max (l.foldr max 0) acc := by
  induction l with
  | nil => simp
  | cons hd tl ih =>
    simp only [List.foldr_cons, ih]
    omega

theorem foldl_max_slow (l : List (ℕ × ℕ × ℕ)) (acc : ℕ) :
    l.foldl (fun b t => max b t.2.1) acc = max acc ((l.map (fun t => t.2.1)).foldr max 0) := by
  induction l generalizing acc with
  | nil => simp
  | cons hd tl ih =>
    simp only [List.foldl_cons, List.map_cons, List.foldr_cons, ih]
    omega

theorem largestPeriod_eq (c : IndicatorConfig) :
    largestPeriod c =
      max (max (max (c.sma.foldr max 0) (c.ema.foldr max 0)) (c.rsi.foldr max 0))
        ((c.macd.map (fun t => t.2.1)).foldr max 0) := by
  unfold largestPeriod
  rw [List.foldr_append, List.foldr_append, List.foldr_append]
  rw [foldr_max_acc c.rsi ((c.macd.map (fun t => t.2.1)).foldr max 0)]
  rw [foldr_max_acc c.ema
    (max (c.rsi.foldr max 0) ((c.macd.map (fun t => t.2.1)).foldr max 0))]
  rw [foldr_max_acc c.sma
    (max (c.ema.foldr max 0)
      (max (c.rsi.foldr max 0) ((c.macd.map (fun t => t.2.1)).foldr max 0)))]
  omega

/-- C5 amended: the threshold the `/scan` endpoint passes to run_scan is
`max(largest configured period + 5, 50)` — the fixed floor of 50 is
applied after the +5 safety buffer is added to the largest period, not
before. -/
theorem c5_scan_min_bars_formula (c : IndicatorConfig) :
    scan_min_bars c = max (largestPeriod c + 5) 50 := by
  unfold scan_min_bars required_bars
  simp only [foldl_max_eq, foldl_max_slow]
  rw [largestPeriod_eq]
  omega

/-! ### C10: cache set/get round trip and TTL expiry -/

/-- C10: for any key triple and table, a get at most 30 minutes after the
set returns exactly the stored table with the cache untouched, and a get
strictly more than 30 minutes after the set misses and removes the entry
from both the data and the timestamp dicts. -/
theorem c10_cache_ttl (st : CacheState) (symbol tf : String) (cfg : IndicatorConfig)
    (df : Table) (t0 t1 : ℚ) :
    (t1 - t0 ≤ DEFAULT_TTL →
      get_cached (set_cache st t0 symbol tf cfg df) t1 symbol tf cfg =
        (some df, set_cache st t0 symbol tf cfg df)) ∧
    (DEFAULT_TTL < t1 - t0 →
      (get_cached (set_cache st t0 symbol tf cfg df) t1 symbol tf cfg).1 = none ∧
      ((get_cached (set_cache st t0 symbol tf cfg df) t1 symbol tf cfg).2.cache.lookup
        (make_cache_key symbol tf cfg)) = none ∧
      ((get_cached (set_cache st t0 symbol tf cfg df) t1 symbol tf cfg).2.cacheTs.lookup
        (make_cache_key symbol tf cfg)) = none) := by
  have hl : (set_cache st t0 symbol tf cfg df).cache.lookup (make_cache_key symbol tf cfg)
      = some df := lookup_dictInsert _ _ _
  have hts : (set_cache st t0 symbol tf cfg df).cacheTs.lookup (make_cache_key symbol tf cfg)
      = some t0 := lookup_dictInsert _ _ _
  constructor
  · intro hle
    simp only [get_cached, hl, hts, Option.getD_some]
    rw [if_neg (by linarith)]
  · intro hgt
    simp only [get_cached, hl, hts, Option.getD_some]
    rw [if_pos (by linarith)]
    exact ⟨rfl, lookup_dictErase _ _, lookup_dictErase _ _⟩

/-- C10 witness: a concrete set followed by a get 1800 seconds later hits
with the stored table, and a get 1801 seconds later misses with the entry
purged. -/
theorem c10_cache_ttl_witness :
    (get_cached (set_cache ⟨[], []⟩ 0 "TCS" "1D" {} ⟨["close"], [[.fin 5]]⟩) 1800 "TCS" "1D" {}
      = (some ⟨["close"], [[.fin 5]]⟩, set_cache ⟨[], []⟩ 0 "TCS" "1D" {} ⟨["close"], [[.fin 5]]⟩)) ∧
    (get_cached (set_cache ⟨[], []⟩ 0 "TCS" "1D" {} ⟨["close"], [[.fin 5]]⟩) 1801 "TCS" "1D" {}).1
      = none := by
  constructor
  · exact (c10_cache_ttl ⟨[], []⟩ "TCS" "1D" {} ⟨["close"], [[.fin 5]]⟩ 0 1800).1 (by norm_num [DEFAULT_TTL])
  · exact ((c10_cache_ttl ⟨[], []⟩ "TCS" "1D" {} ⟨["close"], [[.fin 5]]⟩ 0 1801).2 (by norm_num [DEFAULT_TTL])).1

deriving instance DecidableEq for Except

/-! ### C7: indicator calls and the input table -/

/-- C7 counterexample: add_sma on a two-bar table stored at reference 0
succeeds, returns the same reference 0 (not a new table), and the table
at that reference has changed — the call mutated its input in place.
A spelled-out evaluation: the SMA_2 column [NaN, 3/2] was written into
the stored table. -/
theorem c7_counterexample :
    add_sma_inplace [⟨["close"], [[.fin 1], [.fin 2]]⟩] 0 2 =
      .ok ([⟨["close", "SMA_2"], [[.fin 1, .nan], [.fin 2, .fin (3/2)]]⟩], 0) ∧
    readTable [⟨["close", "SMA_2"], [[.fin 1, .nan], [.fin 2, .fin (3/2)]]⟩] 0 ≠
      readTable [⟨["close"], [[.fin 1], [.fin 2]]⟩] 0 := by
  constructor
  · norm_num [add_sma_inplace, add_sma, readTable, Table.getCol, Table.findCol, rowCell,
      Table.assign, rollingMean, windowMean, esum, eadd, ediv, List.range_succ,
      List.findIdx?_cons, List.findIdx?_nil]
    rw [if_neg (by decide)]
    rfl
  · simp only [readTable, List.getD]
    intro hcontra
    exact absurd (congrArg Table.cols hcontra) (by decide)

/-- C7 amended: every indicator call writes through the reference it was
given and returns that same reference (never a fresh table); add_ema,
add_rsi and add_macd are no-ops leaving the whole store untouched when
their guard column already exists, while add_sma recomputes its column
unconditionally; a successful add_sma leaves every other reference
untouched and, when the column was absent, appends exactly the
`SMA_<period>` column to the stored table. -/
theorem c7_indicators_mutate_in_place (σ : Store) (r p len fast slow sig : ℕ) :
    (∀ σ2 r2, add_sma_inplace σ r p = .ok (σ2, r2) → r2 = r) ∧
    (∀ σ2 r2, add_ema_inplace σ r len = .ok (σ2, r2) → r2 = r) ∧
    (∀ σ2 r2, add_rsi_inplace σ r len = .ok (σ2, r2) → r2 = r) ∧
    (∀ σ2 r2, add_macd_inplace σ r fast slow sig = .ok (σ2, r2) → r2 = r) ∧
    ((readTable σ r).hasCol ("ema_" ++ toString len) = true →
      add_ema_inplace σ r len = .ok (σ, r)) ∧
    ((readTable σ r).hasCol ("rsi_" ++ toString len) = true →
      add_rsi_inplace σ r len = .ok (σ, r)) ∧
    ((readTable σ r).hasCol ("macd_" ++ toString fast ++ "_" ++ toString slow) = true →
      add_macd_inplace σ r fast slow sig = .ok (σ, r)) ∧
    (∀ σ2 r2 r3, add_sma_inplace σ r p = .ok (σ2, r2) → r3 ≠ r →
      readTable σ2 r3 = readTable σ r3) ∧
    (∀ σ2 r2, add_sma_inplace σ r p = .ok (σ2, r2) → r < σ.length →
      (readTable σ r).hasCol ("SMA_" ++ toString p) = false →
      (readTable σ2 r).cols = (readTable σ r).cols ++ ["SMA_" ++ toString p]) := by
  refine ⟨?_, ?_, ?_, ?_, ?_, ?_, ?_, ?_, ?_⟩
  · intro σ2 r2 h
    unfold add_sma_inplace at h
    cases hadd : add_sma (readTable σ r) p with
    | error e => rw [hadd] at h; cases h
    | ok t2 => rw [hadd] at h; cases h; rfl
  · intro σ2 r2 h
    unfold add_ema_inplace at h
    cases hadd : add_ema (readTable σ r) len with
    | error e => rw [hadd] at h; cases h
    | ok t2 => rw [hadd] at h; cases h; rfl
  · intro σ2 r2 h
    unfold add_rsi_inplace at h
    cases hadd : add_rsi (readTable σ r) len with
    | error e => rw [hadd] at h; cases h
    | ok t2 => rw [hadd] at h; cases h; rfl
  · intro σ2 r2 h
    unfold add_macd_inplace at h
    cases hadd : add_macd (readTable σ r) fast slow sig with
    | error e => rw [hadd] at h; cases h
    | ok t2 => rw [hadd] at h; cases h; rfl
  · intro hcol
    unfold add_ema_inplace add_ema
    simp only [hcol, if_true]
    rw [set_readTable_self]
  · intro hcol
    unfold add_rsi_inplace add_rsi
    simp only [hcol, if_true]
    rw [set_readTable_self]
  · intro hcol
    unfold add_macd_inplace add_macd
    simp only [hcol, if_true]
    rw [set_readTable_self]
  · intro σ2 r2 r3 h hne
    unfold add_sma_inplace at h
    cases hadd : add_sma (readTable σ r) p with
    | error e => rw [hadd] at h; cases h
    | ok t2 =>
      rw [hadd] at h
      cases h
      exact readTable_set_ne σ r r3 t2 hne
  · intro σ2 r2 h hlen hcol
    unfold add_sma_inplace at h
    cases hadd : add_sma (readTable σ r) p with
    | error e => rw [hadd] at h; cases h
    | ok t2 =>
      rw [hadd] at h
      cases h
      rw [readTable_set_self σ r t2 hlen]
      unfold add_sma at hadd
      cases hget : (readTable σ r).getCol "close" with
      | none => rw [hget] at hadd; cases hadd
      | some closes =>
        rw [hget] at hadd
        cases hadd
        unfold Table.assign
        have : (readTable σ r).findCol ("SMA_" ++ toString p) = none := by
          unfold Table.findCol
          exact findIdx?_none_of_not_contains _ _ hcol
        rw [this]

/-- C7 witness: the no-op branch at a concrete store — add_ema on a table
already holding ema_3 returns the store and reference unchanged. -/
theorem c7_indicators_witness :
    add_ema_inplace [⟨["close", "ema_3"], [[.fin 1, .fin 1]]⟩] 0 3 =
      .ok ([⟨["close", "ema_3"], [[.fin 1, .fin 1]]⟩], 0) :=
  (c7_indicators_mutate_in_place [⟨["close", "ema_3"], [[.fin 1, .fin 1]]⟩]
    0 2 3 12 26 9).2.2.2.2.1 (by decide)

/-! ### C8: RSI at rows with zero average loss -/

/-- C8 counterexample: on closes 1, 2, 3 with period 2, the third row has
rolling average loss exactly 0, and the RSI value add_rsi computes there
is 100 — a finite value, not the NaN the claim asserts (rs = avg_gain/0
is +inf under numpy division and 100 - 100/(1 + inf) collapses to 100). -/
theorem c8_counterexample :
    avgLossSeries 2 [.fin 1, .fin 2, .fin 3] = [.nan, .nan, .fin 0] ∧
    rsiSeries 2 [.fin 1, .fin 2, .fin 3] = [.nan, .nan, .fin 100] ∧
    EVal.fin 100 ≠ .nan := by
  refine ⟨?_, ?_, by decide⟩
  · norm_num [avgLossSeries, rollingMean, windowMean, esum, diffSeries, clipUpper0, eneg,
      eadd, esub, ediv, List.range_succ]
  · norm_num [rsiSeries, avgGainSeries, avgLossSeries, rollingMean, windowMean, esum,
      diffSeries, clipLower0, clipUpper0, eneg, eadd, esub, ediv, List.range_succ]

/-- Nonnegative-or-special values: what the gain/loss pipeline of add_rsi
can produce (never a negative finite value, never -inf). -/
def IsNNE (v : EVal) : Prop := v = .nan ∨ v = .pinf ∨ ∃ q, 0 ≤ q ∧ v = .fin q

theorem isNNE_gain (d : EVal) : IsNNE (clipLower0 d) := by
  cases d with
  | fin q => exact Or.inr (Or.inr ⟨max q 0, le_max_right q 0, rfl⟩)
  | pinf => exact Or.inr (Or.inl rfl)
  | ninf => exact Or.inr (Or.inr ⟨0, le_refl 0, rfl⟩)
  | nan => exact Or.inl rfl

theorem isNNE_loss (d : EVal) : IsNNE (eneg (clipUpper0 d)) := by
  cases d with
  | fin q =>
    refine Or.inr (Or.inr ⟨-(min q 0), ?_, rfl⟩)
    simp only [Left.nonneg_neg_iff]
    exact min_le_right q 0
  | pinf => exact Or.inr (Or.inr ⟨-0, by norm_num, rfl⟩)
  | ninf => exact Or.inr (Or.inl rfl)
  | nan => exact Or.inl rfl

theorem gain_nan_iff (d : EVal) : clipLower0 d = .nan ↔ d = .nan := by
  cases d <;> simp [clipLower0]

theorem loss_nan_iff (d : EVal) : eneg (clipUpper0 d) = .nan ↔ d = .nan := by
  cases d <;> simp [clipUpper0, eneg]

theorem isNNE_eadd {a b : EVal} (ha : IsNNE a) (hb : IsNNE b) : IsNNE (eadd a b) := by
  rcases ha with ha | ha | ⟨qa, hqa, ha⟩ <;> rcases hb with hb | hb | ⟨qb, hqb, hb⟩ <;>
    subst ha <;> subst hb <;> simp only [eadd]
  all_goals first
    | exact Or.inl rfl
    | exact Or.inr (Or.inl rfl)
    | exact Or.inr (Or.inr ⟨_, by positivity, rfl⟩)

theorem eadd_no_new_nan {a b : EVal} (ha : IsNNE a) (hb : IsNNE b)
    (hna : a ≠ .nan) (hnb : b ≠ .nan) : eadd a b ≠ .nan := by
  rcases ha with ha | ha | ⟨qa, hqa, ha⟩ <;> rcases hb with hb | hb | ⟨qb, hqb, hb⟩ <;>
    subst ha <;> subst hb <;> simp_all [eadd]

theorem isNNE_foldl {xs : List EVal} {acc : EVal} (hacc : IsNNE acc)
    (hxs : ∀ x ∈ xs, IsNNE x) : IsNNE (xs.foldl eadd acc) := by
  induction xs generalizing acc with
  | nil => simpa using hacc
  | cons hd tl ih =>
    simp only [List.foldl_cons]
    exact ih (isNNE_eadd hacc (hxs hd (List.mem_cons_self hd tl)))
      (fun x hx => hxs x (List.mem_cons_of_mem hd hx))

theorem foldl_no_nan {xs : List EVal} {acc : EVal} (hacc : IsNNE acc)
    (hna : acc ≠ .nan) (hxs : ∀ x ∈ xs, IsNNE x ∧ x ≠ .nan) :
    xs.foldl eadd acc ≠ .nan := by
  induction xs generalizing acc with
  | nil => simpa using hna
  | cons hd tl ih =>
    simp only [List.foldl_cons]
    have hd' := hxs hd (List.mem_cons_self hd tl)
    exact ih (isNNE_eadd hacc hd'.1) (eadd_no_new_nan hacc hd'.1 hna hd'.2)
      (fun x hx => hxs x (List.mem_cons_of_mem hd hx))

theorem isNNE_esum {xs : List EVal} (hxs : ∀ x ∈ xs, IsNNE x) : IsNNE (esum xs) :=
  isNNE_foldl (Or.inr (Or.inr ⟨0, le_refl 0, rfl⟩)) hxs

theorem esum_no_nan {xs : List EVal} (hxs : ∀ x ∈ xs, IsNNE x ∧ x ≠ .nan) :
    esum xs ≠ .nan :=
  foldl_no_nan (Or.inr (Or.inr ⟨0, le_refl 0, rfl⟩)) (by simp) hxs

theorem isNNE_ediv {a b : EVal} (ha : IsNNE a) (hb : IsNNE b) : IsNNE (ediv a b) := by
  rcases ha with ha | ha | ⟨qa, hqa, ha⟩ <;> rcases hb with hb | hb | ⟨qb, hqb, hb⟩ <;>
    subst ha <;> subst hb <;> simp only [ediv]
  all_goals try exact Or.inl rfl
  · rw [if_pos hqb]
    exact Or.inr (Or.inl rfl)
  · exact Or.inr (Or.inr ⟨0, le_refl 0, rfl⟩)
  · by_cases hqb0 : qb = 0
    · rw [if_pos hqb0]
      by_cases hqa0 : qa = 0
      · rw [if_pos hqa0]
        exact Or.inl rfl
      · rw [if_neg hqa0, if_pos (lt_of_le_of_ne hqa (Ne.symm hqa0))]
        exact Or.inr (Or.inl rfl)
    · rw [if_neg hqb0]
      exact Or.inr (Or.inr ⟨qa / qb, div_nonneg hqa hqb, rfl⟩)

theorem isNNE_windowMean (p : ℕ) {xs : List EVal} (hxs : ∀ x ∈ xs, IsNNE x) :
    IsNNE (windowMean p xs) :=
  isNNE_ediv (isNNE_esum hxs) (Or.inr (Or.inr ⟨(p : ℚ), by positivity, rfl⟩))

theorem rsiFormula_not_inf {rs : EVal} (h : IsNNE rs) :
    esub (.fin 100) (ediv (.fin 100) (eadd (.fin 1) rs)) ≠ .pinf ∧
    esub (.fin 100) (ediv (.fin 100) (eadd (.fin 1) rs)) ≠ .ninf := by
  rcases h with h | h | ⟨q, hq, h⟩ <;> subst h
  · simp [eadd, ediv, esub, eneg]
  · simp [eadd, ediv, esub, eneg]
  · have h1 : (1 : ℚ) + q ≠ 0 := by positivity
    simp [eadd, ediv, esub, eneg, h1]

theorem eadd_nan_right (a : EVal) : eadd a .nan = .nan := by cases a <;> rfl

theorem foldl_eadd_nan (xs : List EVal) : xs.foldl eadd .nan = .nan := by
  induction xs with
  | nil => rfl
  | cons hd tl ih =>
    simp only [List.foldl_cons]
    rw [show eadd .nan hd = .nan from by cases hd <;> rfl]
    exact ih

theorem foldl_eadd_nan_mem (xs : List EVal) (acc : EVal) (h : EVal.nan ∈ xs) :
    xs.foldl eadd acc = .nan := by
  induction xs generalizing acc with
  | nil => cases h
  | cons hd tl ih =>
    simp only [List.foldl_cons]
    rcases List.mem_cons.mp h with h1 | h1
    · rw [← h1, eadd_nan_right, foldl_eadd_nan]
    · exact ih _ h1

theorem esum_nan_of_mem {xs : List EVal} (h : EVal.nan ∈ xs) : esum xs = .nan :=
  foldl_eadd_nan_mem xs _ h

theorem length_rollingMean (p : ℕ) (xs : List EVal) :
    (rollingMean p xs).length = xs.length := by
  simp [rollingMean]

theorem getElem?_rollingMean (p : ℕ) (xs : List EVal) (i : ℕ) (h : i < xs.length) :
    (rollingMean p xs)[i]? =
      some (if i + 1 < p then .nan else windowMean p ((xs.take (i + 1)).drop (i + 1 - p))) := by
  unfold rollingMean
  rw [List.getElem?_map, List.getElem?_range h]
  rfl

theorem window_map (f : EVal → EVal) (xs : List EVal) (i p : ℕ) :
    (((xs.map f).take (i + 1)).drop (i + 1 - p)) =
      ((xs.take (i + 1)).drop (i + 1 - p)).map f := by
  rw [← List.map_take, ← List.map_drop]

theorem rollingMean_NNE (p : ℕ) {xs : List EVal} (h : ∀ x ∈ xs, IsNNE x) :
    ∀ v ∈ rollingMean p xs, IsNNE v := by
  intro v hv
  unfold rollingMean at hv
  rw [List.mem_map] at hv
  obtain ⟨i, _, rfl⟩ := hv
  split
  · exact Or.inl rfl
  · refine isNNE_windowMean p (fun x hx => h x ?_)
    exact List.mem_of_mem_take (List.mem_of_mem_drop hx)

theorem zipWith_ediv_NNE (as bs : List EVal) (ha : ∀ a ∈ as, IsNNE a)
    (hb : ∀ b ∈ bs, IsNNE b) : ∀ v ∈ List.zipWith ediv as bs, IsNNE v := by
  induction as generalizing bs with
  | nil => intro v hv; cases hv
  | cons hda tla ih =>
    intro v hv
    cases bs with
    | nil => cases hv
    | cons hdb tlb =>
      simp only [List.zipWith_cons_cons, List.mem_cons] at hv
      rcases hv with hv | hv
      · subst hv
        exact isNNE_ediv (ha hda (List.mem_cons_self _ _)) (hb hdb (List.mem_cons_self _ _))
      · exact ih tlb (fun a hx => ha a (List.mem_cons_of_mem _ hx))
          (fun b hx => hb b (List.mem_cons_of_mem _ hx)) v hv

/-- C8 amended: at any row where add_rsi's rolling average loss is
exactly zero, the RSI value is 100 when the rolling average gain is
nonzero and NaN when it is zero as well (rs = gain/0 is +inf or NaN under
numpy division and the 100 - 100/(1+rs) formula maps those to 100 and
NaN); moreover no RSI cell is ever an infinity. -/
theorem c8_rsi_zero_loss (len : ℕ) (closes : List EVal) (i : ℕ) :
    ((avgLossSeries len closes)[i]? = some (.fin 0) →
      (((avgGainSeries len closes)[i]? = some (.fin 0)) ∧
        (rsiSeries len closes)[i]? = some .nan) ∨
      (rsiSeries len closes)[i]? = some (.fin 100)) ∧
    (∀ v ∈ rsiSeries len closes, v ≠ .pinf ∧ v ≠ .ninf) := by
  have hNNEg : ∀ a ∈ avgGainSeries len closes, IsNNE a := by
    unfold avgGainSeries
    refine rollingMean_NNE len (fun x hx => ?_)
    rw [List.mem_map] at hx
    obtain ⟨d, _, rfl⟩ := hx
    exact isNNE_gain d
  have hNNEl : ∀ a ∈ avgLossSeries len closes, IsNNE a := by
    unfold avgLossSeries
    refine rollingMean_NNE len (fun x hx => ?_)
    rw [List.mem_map] at hx
    obtain ⟨d, _, rfl⟩ := hx
    exact isNNE_loss d
  constructor
  · intro hloss0
    have hAL := hloss0
    have hlen : i < (diffSeries closes).length := by
      by_contra hge
      have hnone : (avgLossSeries len closes)[i]? = none := by
        refine List.getElem?_eq_none ?_
        unfold avgLossSeries
        rw [length_rollingMean, List.length_map]
        omega
      rw [hnone] at hloss0
      cases hloss0
    have hlenm : i < ((diffSeries closes).map (fun d => eneg (clipUpper0 d))).length := by
      simpa using hlen
    have hlenG : i < ((diffSeries closes).map clipLower0).length := by
      simpa using hlen
    rw [avgLossSeries, getElem?_rollingMean _ _ _ hlenm] at hloss0
    have hloss' := Option.some.inj hloss0
    by_cases hip : i + 1 < len
    · rw [if_pos hip] at hloss'
      simp at hloss'
    · rw [if_neg hip, window_map] at hloss'
      set w := ((diffSeries closes).take (i + 1)).drop (i + 1 - len) with hw
      have hSN : IsNNE (esum (w.map (fun d => eneg (clipUpper0 d)))) := by
        refine isNNE_esum (fun x hx => ?_)
        rw [List.mem_map] at hx
        obtain ⟨d, _, rfl⟩ := hx
        exact isNNE_loss d
      unfold windowMean at hloss'
      rcases hSN with hS | hS | ⟨s, hs, hS⟩
      · rw [hS] at hloss'
        simp [ediv] at hloss'
      · rw [hS] at hloss'
        simp only [ediv] at hloss'
        split at hloss' <;> simp at hloss'
      · rw [hS] at hloss'
        simp only [ediv] at hloss'
        by_cases hl0 : ((len : ℕ) : ℚ) = 0
        · rw [if_pos hl0] at hloss'
          split_ifs at hloss' <;> simp at hloss'
        · rw [if_neg hl0] at hloss'
          injection hloss' with hs0
          have hsz : s = 0 := by
            rcases div_eq_zero_iff.mp hs0 with h | h
            · exact h
            · exact absurd h hl0
          have hwnan : ∀ d ∈ w, d ≠ .nan := by
            intro d hd hdn
            have hmem : EVal.nan ∈ w.map (fun d => eneg (clipUpper0 d)) := by
              rw [List.mem_map]
              exact ⟨d, hd, by rw [hdn]; rfl⟩
            exact absurd (hS.symm.trans (esum_nan_of_mem hmem)) (by simp)
          have hGnn : ∀ x ∈ w.map clipLower0, IsNNE x ∧ x ≠ .nan := by
            intro x hx
            rw [List.mem_map] at hx
            obtain ⟨d, hd, rfl⟩ := hx
            exact ⟨isNNE_gain d, fun hna => hwnan d hd ((gain_nan_iff d).mp hna)⟩
          have hGN : IsNNE (esum (w.map clipLower0)) := isNNE_esum (fun x hx => (hGnn x hx).1)
          have hGnan : esum (w.map clipLower0) ≠ .nan := esum_no_nan hGnn
          have hAG : (avgGainSeries len closes)[i]? =
              some (ediv (esum (w.map clipLower0)) (.fin ((len : ℕ) : ℚ))) := by
            rw [avgGainSeries, getElem?_rollingMean _ _ _ hlenG, if_neg hip, window_map]
            rfl
          have hrsi : (rsiSeries len closes)[i]? =
              some (esub (.fin 100) (ediv (.fin 100) (eadd (.fin 1)
                (ediv (ediv (esum (w.map clipLower0)) (.fin ((len : ℕ) : ℚ))) (.fin 0))))) := by
            unfold rsiSeries
            rw [List.getElem?_map, List.getElem?_zipWith, hAG, hAL]
            rfl
          rcases hGN with hG | hG | ⟨g, hg, hG⟩
          · exact absurd hG hGnan
          · right
            rw [hrsi, hG]
            have hc : (0 : ℚ) ≤ ((len : ℕ) : ℚ) := by positivity
            norm_num [ediv, eadd, esub, eneg, hc]
          · rw [hG] at hAG hrsi
            by_cases hg0 : g = 0
            · left
              subst hg0
              constructor
              · rw [hAG]
                norm_num [ediv, hl0]
              · rw [hrsi]
                norm_num [ediv, eadd, esub, eneg, hl0]
            · right
              have hlpos : (0 : ℚ) < ((len : ℕ) : ℚ) :=
                lt_of_le_of_ne (by positivity) (Ne.symm hl0)
              have hgpos : 0 < g := lt_of_le_of_ne hg (Ne.symm hg0)
              have hdivpos : 0 < g / ((len : ℕ) : ℚ) := div_pos hgpos hlpos
              rw [hrsi]
              norm_num [ediv, eadd, esub, eneg, hl0, hdivpos, ne_of_gt hdivpos]
  · intro v hv
    unfold rsiSeries at hv
    rw [List.mem_map] at hv
    obtain ⟨rs, hrs, rfl⟩ := hv
    exact rsiFormula_not_inf (zipWith_ediv_NNE _ _ hNNEg hNNEl rs hrs)

/-- C8 witness: the amended theorem applied at period 2, closes 1, 2, 3,
row 2, whose average loss is exactly zero. -/
theorem c8_rsi_zero_loss_witness :
    (((avgGainSeries 2 [.fin 1, .fin 2, .fin 3])[2]? = some (.fin 0)) ∧
      (rsiSeries 2 [.fin 1, .fin 2, .fin 3])[2]? = some .nan) ∨
    (rsiSeries 2 [.fin 1, .fin 2, .fin 3])[2]? = some (.fin 100) := by
  refine (c8_rsi_zero_loss 2 [.fin 1, .fin 2, .fin 3] 2).1 ?_
  have h : avgLossSeries 2 [.fin 1, .fin 2, .fin 3] = [.nan, .nan, .fin 0] := by
    norm_num [avgLossSeries, rollingMean, windowMean, esum, diffSeries, clipUpper0, eneg,
      eadd, esub, ediv, List.range_succ]
  rw [h]
  rfl

/-! ### C1: validator-accepted trees versus the compiler -/

theorem validateRules_ok_head {x : JVal} {rest : List JVal}
    (h : validateRules (x :: rest) = .ok ()) : validate_rule x = .ok () := by
  rw [validateRules] at h
  cases hvx : validate_rule x with
  | error e => rw [hvx] at h; cases h
  | ok u => cases u; rfl

theorem validateRules_ok_tail {x : JVal} {rest : List JVal}
    (h : validateRules (x :: rest) = .ok ()) : validateRules rest = .ok () := by
  rw [validateRules] at h
  cases hvx : validate_rule x with
  | error e => rw [hvx] at h; cases h
  | ok u => rw [hvx] at h; exact h

theorem buildRules_error_head {x : JVal} {rest : List JVal} {e : String}
    (h : build_rule x = .error e) : buildRules (x :: rest) = .error e := by
  rw [buildRules, h]

theorem jLookup_none_of_keys {fs : List (String × JVal)} {allowed : List String} {k : String}
    (hall : ∀ kv ∈ fs, kv.1 ∈ allowed) (hk : k ∉ allowed) : jLookup fs k = none := by
  induction fs with
  | nil => rfl
  | cons hd tl ih =>
    obtain ⟨k', v'⟩ := hd
    simp only [jLookup]
    rw [if_neg, ih (fun kv hkv => hall kv (List.mem_cons_of_mem _ hkv))]
    intro hcontra
    subst hcontra
    exact hk (hall (k', v') (List.mem_cons_self _ _))


theorem validate_obj_and_elim {fields : List (String × JVal)}
    (hA : hasKey fields "AND" = true)
    (hval : validate_rule (.obj fields) = .ok ()) :
    ∃ x rest, jLookup fields "AND" = some (.arr (x :: rest)) ∧
      validateRules (x :: rest) = .ok () := by
  rw [validate_rule.eq_def] at hval
  simp only [hA, Bool.true_or, if_true] at hval
  split at hval
  · next xs2 heq2 =>
    rw [if_pos hA] at heq2
    cases xs2 with
    | nil => simp at hval
    | cons x rest =>
      refine ⟨x, rest, heq2, ?_⟩
      simpa using hval
  · simp at hval

theorem validate_obj_or_elim {fields : List (String × JVal)}
    (hA : hasKey fields "AND" = false) (hO : hasKey fields "OR" = true)
    (hval : validate_rule (.obj fields) = .ok ()) :
    ∃ x rest, jLookup fields "OR" = some (.arr (x :: rest)) ∧
      validateRules (x :: rest) = .ok () := by
  rw [validate_rule.eq_def] at hval
  simp only [hA, hO, Bool.false_or, if_true] at hval
  split at hval
  · next xs2 heq2 =>
    rw [if_neg (by rw [hA]; exact Bool.false_ne_true)] at heq2
    cases xs2 with
    | nil => simp at hval
    | cons x rest =>
      refine ⟨x, rest, heq2, ?_⟩
      simpa using hval
  · simp at hval

theorem buildJunctionChildren_arr (xs : List JVal) :
    buildJunctionChildren (some (.arr xs)) = buildRules xs := by
  rw [buildJunctionChildren]

theorem build_rule_obj_and_err {fields : List (String × JVal)} {xs : List JVal} {e : String}
    (hA : hasKey fields "AND" = true)
    (hlk : jLookup fields "AND" = some (.arr xs)) (he : buildRules xs = .error e) :
    build_rule (.obj fields) = .error e := by
  rw [build_rule.eq_def]
  simp only [hA, if_true]
  rw [hlk, buildJunctionChildren_arr, he]
  rfl

theorem build_rule_obj_or_err {fields : List (String × JVal)} {xs : List JVal} {e : String}
    (hA : hasKey fields "AND" = false)
    (hlk : jLookup fields "OR" = some (.arr xs)) (he : buildRules xs = .error e) :
    build_rule (.obj fields) = .error e := by
  have hO : hasKey fields "OR" = true := by
    unfold hasKey
    rw [hlk]
    rfl
  rw [build_rule.eq_def]
  simp only [hA, hO, Bool.false_eq_true, if_false, if_true]
  rw [hlk, buildJunctionChildren_arr, he]
  rfl

theorem validate_obj_leaf_elim {fields : List (String × JVal)}
    (hA : hasKey fields "AND" = false) (hO : hasKey fields "OR" = false)
    (hval : validate_rule (.obj fields) = .ok ()) :
    ∃ name cfgFields schema, fields = [(name, .obj cfgFields)] ∧
      List.lookup name RULE_DEFINITIONS = some schema ∧
      (∀ kv ∈ cfgFields, kv.1 ∈ schema.1 ++ schema.2) := by
  rw [validate_rule.eq_def] at hval
  simp only [hA, hO, Bool.or_self, Bool.false_eq_true, if_false] at hval
  cases fields with
  | nil => simp at hval
  | cons hd tl =>
    cases tl with
    | cons h2 t2 => simp at hval
    | nil =>
      obtain ⟨name, cfg⟩ := hd
      simp only at hval
      cases hlk : List.lookup name RULE_DEFINITIONS with
      | none => rw [hlk] at hval; simp at hval
      | some schema =>
        rw [hlk] at hval
        cases cfg with
        | num m => simp at hval
        | str s2 => simp at hval
        | arr xs => simp at hval
        | obj cfgFields =>
          refine ⟨name, cfgFields, schema, rfl, hlk, ?_⟩
          simp only at hval
          split_ifs at hval with hreq hall
          intro kv hkv
          have := List.all_eq_true.mp hall kv hkv
          simpa using this

theorem lookup_RULE_DEFINITIONS_names {name : String}
    {schema : List String × List String}
    (h : List.lookup name RULE_DEFINITIONS = some schema) :
    name = "close_near_sma" ∨ name = "rising_ma" ∨ name = "crossing_up" ∨
      name = "rsi_above" ∨ name = "close_above_open" := by
  simp only [RULE_DEFINITIONS, List.lookup] at h
  cases hb1 : (name == "close_near_sma") with
  | true => exact Or.inl (eq_of_beq hb1)
  | false =>
    simp only [hb1] at h
    cases hb2 : (name == "rising_ma") with
    | true => exact Or.inr (Or.inl (eq_of_beq hb2))
    | false =>
      simp only [hb2] at h
      cases hb3 : (name == "crossing_up") with
      | true => exact Or.inr (Or.inr (Or.inl (eq_of_beq hb3)))
      | false =>
        simp only [hb3] at h
        cases hb4 : (name == "rsi_above") with
        | true => exact Or.inr (Or.inr (Or.inr (Or.inl (eq_of_beq hb4))))
        | false =>
          simp only [hb4] at h
          cases hb5 : (name == "close_above_open") with
          | true => exact Or.inr (Or.inr (Or.inr (Or.inr (eq_of_beq hb5))))
          | false =>
            simp only [hb5] at h
            exact absurd h (by simp)

theorem build_rule_leaf_eq {name : String} {cfg : JVal}
    (hA : hasKey [(name, cfg)] "AND" = false) (hO : hasKey [(name, cfg)] "OR" = false) :
    build_rule (.obj [(name, cfg)]) = buildLeaf name cfg := by
  rw [build_rule.eq_def]
  simp only [hA, hO, Bool.false_eq_true, if_false]

theorem rsi_above_lookup_schema :
    List.lookup "rsi_above" RULE_DEFINITIONS = some (["rsi", "level"], []) := by decide

theorem c1_aux : ∀ (n : ℕ) (j : JVal), sizeOf j ≤ n → validate_rule j = .ok () →
    ∃ e, build_rule j = .error e := by
  intro n
  induction n with
  | zero =>
    intro j hsz
    exfalso
    cases j <;> simp at hsz
  | succ n ih =>
    intro j hsz hval
    cases j with
    | num m => simp [validate_rule] at hval
    | str s => simp [validate_rule] at hval
    | arr xs => simp [validate_rule] at hval
    | obj fields =>
      by_cases hA : hasKey fields "AND"
      · obtain ⟨x, rest, hlk, hvrules⟩ := validate_obj_and_elim hA hval
        have hvx := validateRules_ok_head hvrules
        have hszx : sizeOf x ≤ n := by
          have h1 := jLookup_sizeOf hlk
          have h2 := JVal.arr.sizeOf_spec (x :: rest)
          have h3 := JVal.obj.sizeOf_spec fields
          have h4 : sizeOf (x :: rest) = 1 + sizeOf x + sizeOf rest := by simp
          omega
        obtain ⟨e, he⟩ := ih x hszx hvx
        exact ⟨e, build_rule_obj_and_err hA hlk (buildRules_error_head he)⟩
      · have hA' : hasKey fields "AND" = false := by simpa using hA
        by_cases hO : hasKey fields "OR"
        · obtain ⟨x, rest, hlk, hvrules⟩ :=
            validate_obj_or_elim hA' (by simpa using hO) hval
          have hvx := validateRules_ok_head hvrules
          have hszx : sizeOf x ≤ n := by
            have h1 := jLookup_sizeOf hlk
            have h2 := JVal.arr.sizeOf_spec (x :: rest)
            have h3 := JVal.obj.sizeOf_spec fields
            have h4 : sizeOf (x :: rest) = 1 + sizeOf x + sizeOf rest := by simp
            omega
          obtain ⟨e, he⟩ := ih x hszx hvx
          exact ⟨e, build_rule_obj_or_err hA' hlk (buildRules_error_head he)⟩
        · have hO' : hasKey fields "OR" = false := by simpa using hO
          obtain ⟨name, cfgFields, schema, hfe, hlkname, hkeys⟩ :=
            validate_obj_leaf_elim hA' hO' hval
          subst hfe
          rcases lookup_RULE_DEFINITIONS_names hlkname with h | h | h | h | h
          · subst h
            refine ⟨"Unknown rule: " ++ "close_near_sma", ?_⟩
            rw [build_rule_leaf_eq hA' hO']
            rfl
          · subst h
            refine ⟨"Unknown rule: " ++ "rising_ma", ?_⟩
            rw [build_rule_leaf_eq hA' hO']
            rfl
          · subst h
            refine ⟨"Unknown rule: " ++ "crossing_up", ?_⟩
            rw [build_rule_leaf_eq hA' hO']
            rfl
          · subst h
            rw [rsi_above_lookup_schema] at hlkname
            injection hlkname with hsch
            subst hsch
            have hall : ∀ kv ∈ cfgFields, kv.1 ∈ ["rsi", "level"] := by
              intro kv hkv
              simpa using hkeys kv hkv
            have hnone : jLookup cfgFields "period" = none :=
              jLookup_none_of_keys hall (by decide)
            refine ⟨"KeyError: period", ?_⟩
            rw [build_rule_leaf_eq hA' hO']
            simp [buildLeaf, jGet, hnone]
          · subst h
            refine ⟨"Unknown rule: " ++ "close_above_open", ?_⟩
            rw [build_rule_leaf_eq hA' hO']
            rfl

/-- C1: the claim fails — and maximally so.  validator.validate_rule and
builder.build_rule keep two drifted registries (close_near_sma /
rising_ma / crossing_up / rsi_above / close_above_open versus near_sma /
rising_sma / crossing_sma / rsi_above / rsi_below), and even the shared
name rsi_above validates the keys rsi and level while the factory reads
cfg["period"]; consequently EVERY rule tree validate_rule accepts makes
build_rule raise. -/
theorem c1_validated_trees_make_builder_raise (j : JVal)
    (hval : validate_rule j = .ok ()) : ∃ e, build_rule j = .error e :=
  c1_aux (sizeOf j) j le_rfl hval

/-- C1 witness: the registry leaf close_above_open with empty config
validates, and build_rule raises "Unknown rule" on it. -/
theorem c1_validated_trees_witness :
    validate_rule (.obj [("close_above_open", .obj [])]) = .ok () ∧
    ∃ e, build_rule (.obj [("close_above_open", .obj [])]) = .error e := by
  have hval : validate_rule (.obj [("close_above_open", .obj [])]) = .ok () := by
    simp [validate_rule, hasKey, jLookup, RULE_DEFINITIONS, List.lookup]
  exact ⟨hval, c1_validated_trees_make_builder_raise _ hval⟩

/-! ### C2: indicator column naming, compiler versus pipeline -/

/-- Column names the indicator pipeline can add all start with one of
these four characters (S from SMA_, e from ema_, r from rsi_, m from
macd_/macd_signal_/macd_hist). -/
def pipeCol (c : String) : Prop :=
  c.data.head? = some 'S' ∨ c.data.head? = some 'e' ∨ c.data.head? = some 'r' ∨
    c.data.head? = some 'm'

theorem head_append_lit (lit s : String) (ch : Char) (h : lit.data.head? = some ch) :
    (lit ++ s).data.head? = some ch := by
  rw [String.data_append]
  cases hl : lit.data with
  | nil => rw [hl] at h; cases h
  | cons c cs =>
    rw [hl] at h
    injection h with h2
    simp [h2]

theorem hasCol_true_iff (t : Table) (c : String) : t.hasCol c = true ↔ c ∈ t.cols := by
  unfold Table.hasCol
  exact List.elem_iff

theorem mem_of_findIdx?_some {l : List String} {c : String} {j : ℕ}
    (h : l.findIdx? (fun x => x == c) = some j) : c ∈ l := by
  by_contra hmem
  have hcontains : l.contains c = false := by
    cases hc : l.contains c
    · rfl
    · exact absurd (List.elem_iff.mp hc) hmem
  rw [findIdx?_none_of_not_contains l c hcontains] at h
  cases h

theorem assign_cols (t : Table) (c : String) (vals : List EVal) :
    ((t.assign c vals).cols = t.cols ∧ c ∈ t.cols) ∨
      (t.assign c vals).cols = t.cols ++ [c] := by
  unfold Table.assign
  cases h : t.findCol c with
  | some j => exact Or.inl ⟨rfl, mem_of_findIdx?_some h⟩
  | none => exact Or.inr rfl

theorem mem_assign_cols {t : Table} {c x : String} {vals : List EVal}
    (h : x ∈ (t.assign c vals).cols) : x ∈ t.cols ∨ x = c := by
  rcases assign_cols t c vals with ⟨heq, _⟩ | heq
  · rw [heq] at h; exact Or.inl h
  · rw [heq] at h
    rcases List.mem_append.mp h with h1 | h1
    · exact Or.inl h1
    · exact Or.inr (List.mem_singleton.mp h1)

theorem sub_assign_cols (t : Table) (c : String) (vals : List EVal) :
    t.cols ⊆ (t.assign c vals).cols := by
  rcases assign_cols t c vals with ⟨heq, _⟩ | heq <;> rw [heq]
  · exact fun x hx => hx
  · exact fun x hx => List.mem_append.mpr (Or.inl hx)

theorem self_mem_assign_cols (t : Table) (c : String) (vals : List EVal) :
    c ∈ (t.assign c vals).cols := by
  rcases assign_cols t c vals with ⟨heq, hc⟩ | heq <;> rw [heq]
  · exact hc
  · exact List.mem_append.mpr (Or.inr (List.mem_singleton.mpr rfl))

/-- Column evolution of one pipeline step: new columns are pipeline
names, old columns survive. -/
def ColsProp (t t2 : Table) : Prop :=
  (∀ x ∈ t2.cols, x ∈ t.cols ∨ pipeCol x) ∧ t.cols ⊆ t2.cols

theorem colsProp_refl (t : Table) : ColsProp t t :=
  ⟨fun x hx => Or.inl hx, fun x hx => hx⟩

theorem colsProp_trans {t1 t2 t3 : Table} (h1 : ColsProp t1 t2) (h2 : ColsProp t2 t3) :
    ColsProp t1 t3 := by
  refine ⟨fun x hx => ?_, fun x hx => h2.2 (h1.2 hx)⟩
  rcases h2.1 x hx with h | h
  · exact h1.1 x h
  · exact Or.inr h

theorem colsProp_assign {t : Table} {c : String} {vals : List EVal} (hc : pipeCol c) :
    ColsProp t (t.assign c vals) := by
  refine ⟨fun x hx => ?_, sub_assign_cols t c vals⟩
  rcases mem_assign_cols hx with h | h
  · exact Or.inl h
  · exact Or.inr (h ▸ hc)

theorem add_sma_cols {t t2 : Table} {p : ℕ} (h : add_sma t p = .ok t2) : ColsProp t t2 := by
  unfold add_sma at h
  cases hg : t.getCol "close" with
  | none => rw [hg] at h; cases h
  | some closes =>
    rw [hg] at h
    injection h with h2
    rw [← h2]
    exact colsProp_assign (Or.inl (head_append_lit "SMA_" _ 'S' rfl))

theorem add_ema_cols {t t2 : Table} {p : ℕ} (h : add_ema t p = .ok t2) : ColsProp t t2 := by
  unfold add_ema at h
  by_cases hc : t.hasCol ("ema_" ++ toString p)
  · rw [if_pos hc] at h
    injection h with h2
    exact h2 ▸ colsProp_refl t
  · rw [if_neg hc] at h
    cases hg : t.getCol "close" with
    | none => rw [hg] at h; cases h
    | some closes =>
      rw [hg] at h
      injection h with h2
      rw [← h2]
      exact colsProp_assign (Or.inr (Or.inl (head_append_lit "ema_" _ 'e' rfl)))

theorem add_rsi_cols {t t2 : Table} {p : ℕ} (h : add_rsi t p = .ok t2) : ColsProp t t2 := by
  unfold add_rsi at h
  by_cases hc : t.hasCol ("rsi_" ++ toString p)
  · rw [if_pos hc] at h
    injection h with h2
    exact h2 ▸ colsProp_refl t
  · rw [if_neg hc] at h
    cases hg : t.getCol "close" with
    | none => rw [hg] at h; cases h
    | some closes =>
      rw [hg] at h
      injection h with h2
      rw [← h2]
      exact colsProp_assign (Or.inr (Or.inr (Or.inl (head_append_lit "rsi_" _ 'r' rfl))))

theorem add_macd_cols {t t2 : Table} {f s g : ℕ} (h : add_macd t f s g = .ok t2) :
    ColsProp t t2 := by
  unfold add_macd at h
  by_cases hc : t.hasCol ("macd_" ++ toString f ++ "_" ++ toString s)
  · rw [if_pos hc] at h
    injection h with h2
    exact h2 ▸ colsProp_refl t
  · rw [if_neg hc] at h
    cases hg : t.getCol "close" with
    | none => rw [hg] at h; cases h
    | some closes =>
      rw [hg] at h
      injection h with h2
      rw [← h2]
      have hm1 : pipeCol ("macd_" ++ toString f ++ "_" ++ toString s) :=
        Or.inr (Or.inr (Or.inr
          (head_append_lit _ _ 'm' (head_append_lit _ _ 'm'
            (head_append_lit "macd_" _ 'm' rfl)))))
      have hm2 : pipeCol ("macd_signal_" ++ toString g) :=
        Or.inr (Or.inr (Or.inr (head_append_lit "macd_signal_" _ 'm' rfl)))
      have hm3 : pipeCol "macd_hist" := Or.inr (Or.inr (Or.inr rfl))
      exact colsProp_trans (colsProp_trans (colsProp_assign hm1) (colsProp_assign hm2))
        (colsProp_assign hm3)

theorem foldlM_colsProp {α : Type} {f : Table → α → Except String Table}
    (hf : ∀ t a t2, f t a = .ok t2 → ColsProp t t2) :
    ∀ (l : List α) (t t2 : Table), l.foldlM f t = .ok t2 → ColsProp t t2 := by
  intro l
  induction l with
  | nil =>
    intro t t2 h
    simp only [List.foldlM_nil] at h
    injection h with h2
    exact h2 ▸ colsProp_refl t
  | cons hd tl ih =>
    intro t t2 h
    rw [List.foldlM_cons] at h
    cases hstep : f t hd with
    | error e => rw [hstep] at h; cases h
    | ok tm =>
      rw [hstep] at h
      exact colsProp_trans (hf t hd tm hstep) (ih tm t2 h)

theorem add_rsi_self_mem {t t2 : Table} {p : ℕ} (h : add_rsi t p = .ok t2) :
    ("rsi_" ++ toString p) ∈ t2.cols := by
  unfold add_rsi at h
  by_cases hc : t.hasCol ("rsi_" ++ toString p)
  · rw [if_pos hc] at h
    injection h with h2
    exact h2 ▸ (hasCol_true_iff t _).mp hc
  · rw [if_neg hc] at h
    cases hg : t.getCol "close" with
    | none => rw [hg] at h; cases h
    | some closes =>
      rw [hg] at h
      injection h with h2
      exact h2 ▸ self_mem_assign_cols t _ _

theorem rsi_foldlM_mem {p : ℕ} :
    ∀ (l : List ℕ) (t t2 : Table), p ∈ l →
      l.foldlM (fun d q => add_rsi d q) t = .ok t2 → ("rsi_" ++ toString p) ∈ t2.cols := by
  intro l
  induction l with
  | nil => intro t t2 hmem; cases hmem
  | cons hd tl ih =>
    intro t t2 hmem h
    rw [List.foldlM_cons] at h
    cases hstep : add_rsi t hd with
    | error e => rw [hstep] at h; cases h
    | ok tm =>
      rw [hstep] at h
      rcases List.mem_cons.mp hmem with h1 | h1
      · subst h1
        exact (foldlM_colsProp (fun t a t2 ha => add_rsi_cols ha) tl tm t2 h).2
          (add_rsi_self_mem hstep)
      · exact ih tm t2 h1 h

theorem apply_indicators_colsProp {t t2 : Table} {cfg : IndicatorConfig}
    (h : apply_indicators t cfg = .ok t2) :
    ColsProp t t2 ∧ (t.rows ≠ [] → ∀ p ∈ cfg.rsi, ("rsi_" ++ toString p) ∈ t2.cols) := by
  unfold apply_indicators at h
  by_cases hemp : t.rows.isEmpty
  · rw [if_pos hemp] at h
    injection h with h2
    subst h2
    exact ⟨colsProp_refl t, fun hne => absurd (List.isEmpty_iff.mp hemp) hne⟩
  · rw [if_neg hemp] at h
    simp only [bind, Except.bind] at h
    cases h1 : cfg.sma.foldlM (fun d p => add_sma d p) t with
    | error e => rw [h1] at h; cases h
    | ok ta =>
      rw [h1] at h
      dsimp only at h
      cases h2 : cfg.ema.foldlM (fun d p => add_ema d p) ta with
      | error e => rw [h2] at h; cases h
      | ok tb =>
        rw [h2] at h
        dsimp only at h
        cases h3 : cfg.rsi.foldlM (fun d p => add_rsi d p) tb with
        | error e => rw [h3] at h; cases h
        | ok tc =>
          rw [h3] at h
          dsimp only at h
          cases h4 : cfg.macd.foldlM (fun d q => add_macd d q.1 q.2.1 q.2.2) tc with
          | error e => rw [h4] at h; cases h
          | ok td =>
            rw [h4] at h
            dsimp only [pure, Except.pure] at h
            injection h with h5
            subst h5
            have c1 := foldlM_colsProp (fun t a t2 ha => add_sma_cols ha) _ _ _ h1
            have c2 := foldlM_colsProp (fun t a t2 ha => add_ema_cols ha) _ _ _ h2
            have c3 := foldlM_colsProp (fun t a t2 ha => add_rsi_cols ha) _ _ _ h3
            have c4 := foldlM_colsProp (fun t a t2 ha => add_macd_cols ha) _ _ _ h4
            refine ⟨colsProp_trans (colsProp_trans (colsProp_trans c1 c2) c3) c4, ?_⟩
            intro _ p hp
            exact c4.2 (rsi_foldlM_mem cfg.rsi tb tc hp h3)

theorem append_ne_of_head (lit s other : String) (ch : Char)
    (h1 : lit.data.head? = some ch) (h2 : other.data.head? ≠ some ch) : lit ++ s ≠ other :=
  fun he => h2 (he ▸ head_append_lit lit s ch h1)

theorem rsi_above_false_of_not_col {col : String} {lvl : JVal} {t : Table}
    (h : t.hasCol col = false) : rsi_above col lvl t = .ok false := by
  unfold rsi_above
  cases _last t <;> simp [h]

/-- C2: compiling `rsi_above` with period p and level L yields a
predicate over the column name RSI_<p>, while the pipeline enriches a bar
table with a column named rsi_<p>; the capitalised name never appears in
a pipeline-enriched table, so the compiled predicate evaluates to false on
all such tables; the same compiler/pipeline divergence holds for the
EMA_<p> vs ema_<p> and MACD_<f>_<s>_<sig> / MACD_SIGNAL_<f>_<s>_<sig> vs
macd_<f>_<s> / macd_signal_<sig> resolvers. -/
theorem c2_rsi_column_name_divergence (p : ℕ) (L : ℤ) (cfg : IndicatorConfig)
    (t t2 : Table) (hcols : t.cols = ["open", "high", "low", "close", "volume"])
    (hp : p ∈ cfg.rsi) (happ : apply_indicators t cfg = .ok t2) :
    build_rule (.obj [("rsi_above", .obj [("period", .num (p : ℤ)), ("level", .num L)])]) =
      .ok (.prsiAbove (rsi_col (.num (p : ℤ))) (.num L)) ∧
    evalRule (.prsiAbove (rsi_col (.num (p : ℤ))) (.num L)) t2 = .ok false ∧
    (t.rows ≠ [] → ("rsi_" ++ toString p) ∈ t2.cols) ∧
    rsi_col (.num (p : ℤ)) ∉ t2.cols ∧
    (∀ q : JVal, ema_col q ≠ "ema_" ++ jFmt q) ∧
    (∀ a b c : JVal, (macd_cols a b c).1 ≠ "macd_" ++ jFmt a ++ "_" ++ jFmt b ∧
      (macd_cols a b c).2 ≠ "macd_signal_" ++ jFmt c) := by
  have hprops := apply_indicators_colsProp happ
  have hnotmem : rsi_col (.num (p : ℤ)) ∉ t2.cols := by
    intro hmem
    unfold rsi_col at hmem
    rcases hprops.1.1 _ hmem with h | h
    · rw [hcols] at h
      have hR := head_append_lit "RSI_" (jFmt (.num (p : ℤ))) 'R' rfl
      simp only [List.mem_cons, List.mem_singleton, List.not_mem_nil, or_false] at h
      rcases h with h | h | h | h | h <;> rw [h] at hR <;> exact absurd hR (by decide)
    · have hR := head_append_lit "RSI_" (jFmt (.num (p : ℤ))) 'R' rfl
      rcases h with h | h | h | h <;> rw [hR] at h <;> exact absurd h (by decide)
  refine ⟨?_, ?_, ?_, hnotmem, ?_, ?_⟩
  · rw [build_rule.eq_def]
    rfl
  · have hhc : t2.hasCol (rsi_col (.num (p : ℤ))) = false := by
      cases hc : t2.hasCol (rsi_col (.num (p : ℤ)))
      · rfl
      · exact absurd ((hasCol_true_iff t2 _).mp hc) hnotmem
    rw [evalRule]
    exact rsi_above_false_of_not_col hhc
  · intro hne
    exact hprops.2 hne p hp
  · intro q
    unfold ema_col
    refine append_ne_of_head "EMA_" (jFmt q) _ 'E' rfl ?_
    rw [head_append_lit "ema_" (jFmt q) 'e' rfl]
    decide
  · intro a b c
    constructor
    · unfold macd_cols
      refine append_ne_of_head "MACD_" _ _ 'M' rfl ?_
      rw [head_append_lit _ _ 'm' (head_append_lit _ _ 'm' (head_append_lit "macd_" _ 'm' rfl))]
      decide
    · unfold macd_cols
      refine append_ne_of_head "MACD_SIGNAL_" _ _ 'M' rfl ?_
      rw [head_append_lit "macd_signal_" (jFmt c) 'm' rfl]
      decide

/-- C2 witness: the divergence theorem applied to a concrete one-row
table enriched with RSI period 14. -/
theorem c2_rsi_column_name_divergence_witness :
    build_rule (.obj [("rsi_above", .obj [("period", .num (14 : ℤ)), ("level", .num 70)])]) =
      .ok (.prsiAbove (rsi_col (.num (14 : ℤ))) (.num 70)) ∧
    evalRule (.prsiAbove (rsi_col (.num (14 : ℤ))) (.num 70))
      ⟨["open", "high", "low", "close", "volume", "rsi_14"],
        [[.fin 1, .fin 1, .fin 1, .fin 1, .fin 1, .nan]]⟩ = .ok false := by
  have h := c2_rsi_column_name_divergence 14 70 ⟨[], [], [14], []⟩
    ⟨["open", "high", "low", "close", "volume"], [[.fin 1, .fin 1, .fin 1, .fin 1, .fin 1]]⟩
    ⟨["open", "high", "low", "close", "volume", "rsi_14"],
      [[.fin 1, .fin 1, .fin 1, .fin 1, .fin 1, .nan]]⟩
    rfl (by decide) (by rfl)
  exact ⟨h.1, h.2.1⟩

/-! ### C3: compiled predicates on arbitrary tables -/

theorem findCol_isSome_of_hasCol {t : Table} {c : String} (h : t.hasCol c = true) :
    ∃ j, t.findCol c = some j := by
  unfold Table.findCol
  cases hf : t.cols.findIdx? (fun x => x == c) with
  | some j => exact ⟨j, rfl⟩
  | none =>
    rw [List.findIdx?_eq_none_iff] at hf
    have hbeq := hf c ((hasCol_true_iff t c).mp h)
    simp at hbeq

/-- The value of a column at the last row, when both exist (the scalar a
leaf reads before comparing). -/
def lastCell (df : Table) (c : String) : Option EVal :=
  match _last df, df.findCol c with
  | some r, some j => some (rowCell r j)
  | _, _ => none

theorem near_ma_total (col : String) (n : ℤ) (df : Table) (hclose : "close" ∈ df.cols) :
    ∃ b, near_ma col (.num n) df = .ok b := by
  unfold near_ma
  cases hl : _last df with
  | none => exact ⟨false, rfl⟩
  | some last =>
    by_cases hc : df.hasCol col
    · obtain ⟨j, hj⟩ := findCol_isSome_of_hasCol hc
      obtain ⟨jc, hjc⟩ := findCol_isSome_of_hasCol ((hasCol_true_iff df "close").mpr hclose)
      simp only [hc, Bool.not_true, Bool.false_eq_true, if_false, rowVal, hj, hjc]
      by_cases hna : (eisna (rowCell last j) || (rowCell last j == EVal.fin 0)) = true
      · exact ⟨false, by rw [if_pos hna]⟩
      · exact ⟨_, by rw [if_neg hna]; rfl⟩
    · have hc' : df.hasCol col = false := by simpa using hc
      exact ⟨false, by simp [hc']⟩

theorem rising_ma_total (col : String) (n : ℤ) (df : Table) :
    ∃ b, rising_ma col (.num n) df = .ok b := by
  unfold rising_ma
  by_cases hc : df.hasCol col
  · simp only [hc, Bool.not_true, Bool.false_eq_true, if_false]
    by_cases hlen : (df.rows.length : ℤ) < n + 1
    · exact ⟨false, by rw [if_pos hlen]⟩
    · rw [if_neg hlen]
      by_cases hna : (tailList ((df.getCol col).getD []) (n + 1)).any eisna = true
      · exact ⟨false, by rw [if_pos hna]⟩
      · exact ⟨_, by rw [if_neg hna]⟩
  · have hc' : df.hasCol col = false := by simpa using hc
    exact ⟨false, by simp [hc']⟩

theorem crossing_up_total (col : String) (df : Table) (hclose : "close" ∈ df.cols) :
    ∃ b, crossing_up col df = .ok b := by
  unfold crossing_up
  cases hl : _last df with
  | none => exact ⟨false, rfl⟩
  | some last =>
    cases hp : _prev df with
    | none => exact ⟨false, rfl⟩
    | some prev =>
      by_cases hc : df.hasCol col
      · obtain ⟨j, hj⟩ := findCol_isSome_of_hasCol hc
        obtain ⟨jc, hjc⟩ := findCol_isSome_of_hasCol ((hasCol_true_iff df "close").mpr hclose)
        simp only [hc, Bool.not_true, Bool.false_eq_true, if_false, rowVal, hj, hjc]
        by_cases hna : (eisna (rowCell last j) || eisna (rowCell prev j)) = true
        · exact ⟨false, by rw [if_pos hna]⟩
        · exact ⟨_, by rw [if_neg hna]⟩
      · have hc' : df.hasCol col = false := by simpa using hc
        exact ⟨false, by simp [hc']⟩

theorem rsi_above_total (col : String) (n : ℤ) (df : Table) :
    ∃ b, rsi_above col (.num n) df = .ok b := by
  unfold rsi_above
  cases hl : _last df with
  | none => exact ⟨false, rfl⟩
  | some last =>
    by_cases hc : df.hasCol col
    · obtain ⟨j, hj⟩ := findCol_isSome_of_hasCol hc
      simp only [hc, Bool.not_true, Bool.false_eq_true, if_false, rowVal, hj]
      exact ⟨_, rfl⟩
    · have hc' : df.hasCol col = false := by simpa using hc
      exact ⟨false, by simp [hc']⟩

theorem rsi_below_total (col : String) (n : ℤ) (df : Table) :
    ∃ b, rsi_below col (.num n) df = .ok b := by
  unfold rsi_below
  cases hl : _last df with
  | none => exact ⟨false, rfl⟩
  | some last =>
    by_cases hc : df.hasCol col
    · obtain ⟨j, hj⟩ := findCol_isSome_of_hasCol hc
      simp only [hc, Bool.not_true, Bool.false_eq_true, if_false, rowVal, hj]
      exact ⟨_, rfl⟩
    · have hc' : df.hasCol col = false := by simpa using hc
      exact ⟨false, by simp [hc']⟩

/-- Predicates whose captured parameters are all JSON numbers (the wire
format of section 6; a string-typed tolerance, lookback or level makes
the closure raise a TypeError at evaluation time instead). -/
inductive NumericParams : RuleFn → Prop where
  | pnear : ∀ (col : String) (n : ℤ), NumericParams (.pnear col (.num n))
  | prising : ∀ (col : String) (n : ℤ), NumericParams (.prising col (.num n))
  | pcross : ∀ (col : String), NumericParams (.pcross col)
  | prsiAbove : ∀ (col : String) (n : ℤ), NumericParams (.prsiAbove col (.num n))
  | prsiBelow : ∀ (col : String) (n : ℤ), NumericParams (.prsiBelow col (.num n))
  | pand : ∀ ps, (∀ p ∈ ps, NumericParams p) → NumericParams (.pand ps)
  | por : ∀ ps, (∀ p ∈ ps, NumericParams p) → NumericParams (.por ps)

theorem evalAnd_total (df : Table) :
    ∀ (l : List RuleFn), (∀ p ∈ l, ∃ b, evalRule p df = .ok b) →
      ∃ b, evalAnd l df = .ok b := by
  intro l
  induction l with
  | nil => exact fun _ => ⟨true, rfl⟩
  | cons p rest ih =>
    intro h
    obtain ⟨b, hb⟩ := h p (List.mem_cons_self _ _)
    rw [evalAnd, hb]
    cases b with
    | false => exact ⟨false, rfl⟩
    | true =>
      obtain ⟨b2, hb2⟩ := ih (fun q hq => h q (List.mem_cons_of_mem _ hq))
      exact ⟨b2, by simpa using hb2⟩

theorem evalOr_total (df : Table) :
    ∀ (l : List RuleFn), (∀ p ∈ l, ∃ b, evalRule p df = .ok b) →
      ∃ b, evalOr l df = .ok b := by
  intro l
  induction l with
  | nil => exact fun _ => ⟨false, rfl⟩
  | cons p rest ih =>
    intro h
    obtain ⟨b, hb⟩ := h p (List.mem_cons_self _ _)
    rw [evalOr, hb]
    cases b with
    | true => exact ⟨true, rfl⟩
    | false =>
      obtain ⟨b2, hb2⟩ := ih (fun q hq => h q (List.mem_cons_of_mem _ hq))
      exact ⟨b2, by simpa using hb2⟩

theorem evalRule_total {pred : RuleFn} (hnum : NumericParams pred) :
    ∀ df : Table, "close" ∈ df.cols → ∃ b, evalRule pred df = .ok b := by
  induction hnum with
  | pnear col n =>
    intro df hclose
    rw [evalRule]
    exact near_ma_total col n df hclose
  | prising col n =>
    intro df _
    rw [evalRule]
    exact rising_ma_total col n df
  | pcross col =>
    intro df hclose
    rw [evalRule]
    exact crossing_up_total col df hclose
  | prsiAbove col n =>
    intro df _
    rw [evalRule]
    exact rsi_above_total col n df
  | prsiBelow col n =>
    intro df _
    rw [evalRule]
    exact rsi_below_total col n df
  | pand ps hps ih =>
    intro df hclose
    rw [evalRule]
    exact evalAnd_total df ps (fun p hp => ih p hp df hclose)
  | por ps hps ih =>
    intro df hclose
    rw [evalRule]
    exact evalOr_total df ps (fun p hp => ih p hp df hclose)

theorem leaf_false_nocol (df : Table) (col : String) (j : JVal)
    (h : df.hasCol col = false) :
    near_ma col j df = .ok false ∧ rising_ma col j df = .ok false ∧
    crossing_up col df = .ok false ∧ rsi_above col j df = .ok false ∧
    rsi_below col j df = .ok false := by
  refine ⟨?_, ?_, ?_, ?_, ?_⟩
  · unfold near_ma
    cases _last df <;> simp [h]
  · unfold rising_ma
    simp [h]
  · unfold crossing_up
    cases _last df <;> cases _prev df <;> simp [h]
  · unfold rsi_above
    cases _last df <;> simp [h]
  · unfold rsi_below
    cases _last df <;> simp [h]

theorem leaf_false_empty (df : Table) (hrows : df.rows = []) (col : String) (j : JVal) :
    near_ma col j df = .ok false ∧ crossing_up col df = .ok false ∧
    rsi_above col j df = .ok false ∧ rsi_below col j df = .ok false := by
  have hl : _last df = none := by
    unfold _last
    rw [hrows]
    rfl
  refine ⟨?_, ?_, ?_, ?_⟩
  · unfold near_ma; rw [hl]
  · unfold crossing_up; rw [hl]
  · unfold rsi_above; rw [hl]
  · unfold rsi_below; rw [hl]

theorem rising_ma_false_short (df : Table) (col : String) (n : ℤ)
    (h : (df.rows.length : ℤ) < n + 1) : rising_ma col (.num n) df = .ok false := by
  unfold rising_ma
  by_cases hc : df.hasCol col
  · simp only [hc, Bool.not_true, Bool.false_eq_true, if_false]
    rw [if_pos h]
  · have hc' : df.hasCol col = false := by simpa using hc
    simp [hc']

theorem leaf_false_nan (df : Table) (col : String) (n : ℤ) (v : EVal)
    (hv : lastCell df col = some v) (hna : eisna v = true) :
    near_ma col (.num n) df = .ok false ∧ crossing_up col df = .ok false ∧
    rsi_above col (.num n) df = .ok false ∧ rsi_below col (.num n) df = .ok false := by
  unfold lastCell at hv
  cases hl : _last df with
  | none => rw [hl] at hv; cases hv
  | some last =>
    rw [hl] at hv
    cases hj : df.findCol col with
    | none => rw [hj] at hv; cases hv
    | some j =>
      rw [hj] at hv
      injection hv with hv2
      have hc : df.hasCol col = true := by
        rw [hasCol_true_iff]
        exact mem_of_findIdx?_some hj
      have hvna : v = .nan := by
        cases v <;> simp [eisna] at hna <;> rfl
      refine ⟨?_, ?_, ?_, ?_⟩
      · unfold near_ma
        rw [hl]
        simp only [hc, Bool.not_true, Bool.false_eq_true, if_false, rowVal, hj, hv2]
        rw [if_pos (by rw [hvna]; rfl)]
      · unfold crossing_up
        rw [hl]
        cases hp : _prev df with
        | none => rfl
        | some prev =>
          simp only [hc, Bool.not_true, Bool.false_eq_true, if_false, rowVal, hj]
          rw [if_pos (by rw [hv2, hvna]; rfl)]
      · unfold rsi_above
        rw [hl]
        simp only [hc, Bool.not_true, Bool.false_eq_true, if_false, rowVal, hj, jCompareGt]
        rw [hv2, hvna]
        rfl
      · unfold rsi_below
        rw [hl]
        simp only [hc, Bool.not_true, Bool.false_eq_true, if_false, rowVal, hj, jCompareLt]
        rw [hv2, hvna]
        rfl

/-- C3 counterexample: build_rule accepts the tree
rsi_above(period 1, level "x") — returning a closure — yet evaluating
that closure on a one-row table that has OHLCV columns and a numeric
RSI_1 column raises a TypeError from the comparison of a float with a
string, so a compiled predicate CAN raise. -/
theorem c3_counterexample :
    build_rule (.obj [("rsi_above", .obj [("period", .num 1), ("level", .str "x")])]) =
      .ok (.prsiAbove (rsi_col (.num 1)) (.str "x")) ∧
    evalRule (.prsiAbove (rsi_col (.num 1)) (.str "x"))
      ⟨["open", "high", "low", "close", "volume", "RSI_1"],
        [[.fin 1, .fin 1, .fin 1, .fin 1, .fin 1, .fin 50]]⟩ =
      .error "TypeError: comparison" := by
  constructor
  · rw [build_rule.eq_def]
    rfl
  · rw [evalRule]
    have hcol : rsi_col (.num 1) = "RSI_1" := by
      rw [rsi_col, jFmt]
      rfl
    rw [hcol]
    rfl

/-- C3 amended: a predicate compiled by build_rule whose captured
parameter values are numbers (as the section 6 wire format supplies)
never raises on any table carrying the OHLCV columns — evaluation always
returns a boolean — and every leaf facing a missing column, an empty
table, an insufficient window, or a NaN cell at the last row returns
false.  (Without the numeric restriction the claim fails, see the
counterexample: a string-valued level raises TypeError at evaluation.) -/
theorem c3_predicates_no_raise (tree : JVal) (pred : RuleFn)
    (hb : build_rule tree = .ok pred) (hnum : NumericParams pred) (df : Table)
    (hclose : "close" ∈ df.cols) :
    (∃ b : Bool, evalRule pred df = .ok b) ∧
    (∀ (col : String) (j : JVal), df.hasCol col = false →
      near_ma col j df = .ok false ∧ rising_ma col j df = .ok false ∧
      crossing_up col df = .ok false ∧ rsi_above col j df = .ok false ∧
      rsi_below col j df = .ok false) ∧
    (df.rows = [] → ∀ (col : String) (j : JVal),
      near_ma col j df = .ok false ∧ crossing_up col df = .ok false ∧
      rsi_above col j df = .ok false ∧ rsi_below col j df = .ok false) ∧
    (∀ (col : String) (n : ℤ), (df.rows.length : ℤ) < n + 1 →
      rising_ma col (.num n) df = .ok false) ∧
    (∀ (col : String) (n : ℤ) (v : EVal), lastCell df col = some v → eisna v = true →
      near_ma col (.num n) df = .ok false ∧ crossing_up col df = .ok false ∧
      rsi_above col (.num n) df = .ok false ∧ rsi_below col (.num n) df = .ok false) := by
  refine ⟨evalRule_total hnum df hclose, ?_, ?_, ?_, ?_⟩
  · exact fun col j h => leaf_false_nocol df col j h
  · exact fun hrows col j => leaf_false_empty df hrows col j
  · exact fun col n h => rising_ma_false_short df col n h
  · exact fun col n v hv hna => leaf_false_nan df col n v hv hna

/-- C3 witness: the amended theorem applied to the near_sma(period 2)
predicate and an empty five-column table, extracting that a leaf over the
absent SMA_2 column evaluates to false. -/
theorem c3_predicates_no_raise_witness :
    near_ma "SMA_2" (.num 1)
      ⟨["open", "high", "low", "close", "volume"], []⟩ = .ok false := by
  have h := c3_predicates_no_raise (.obj [("near_sma", .obj [("period", .num 2)])])
    (.pnear (sma_col (.num 2)) (.num 1))
    (by rw [build_rule.eq_def]; rfl)
    (NumericParams.pnear _ 1)
    ⟨["open", "high", "low", "close", "volume"], []⟩ (by decide)
  exact (h.2.1 "SMA_2" (.num 1) (by decide)).1

/-! ### C9: per-symbol failure isolation in run_scan -/

theorem run_scan_sublist {σ α : Type} (E : ScanEnv σ α) (tf : String)
    (cfg : IndicatorConfig) (mb : ℕ) :
    ∀ (syms : List String) (s : σ), ((run_scan E tf cfg mb s syms).1).Sublist syms := by
  intro syms
  induction syms with
  | nil => intro s; simp [run_scan]
  | cons sym rest ih =>
    intro s
    rw [run_scan]
    cases hp : processSymbol E tf cfg mb s sym with
    | mk r s2 =>
      cases r with
      | error e => exact (ih s2).cons sym
      | ok b =>
        cases b with
        | false => exact (ih s2).cons sym
        | true =>
          simp only []
          cases hrun : run_scan E tf cfg mb s2 rest with
          | mk tail sf => exact (hrun ▸ ih s2).cons₂ sym

theorem run_scan_append {σ α : Type} (E : ScanEnv σ α) (tf : String)
    (cfg : IndicatorConfig) (mb : ℕ) :
    ∀ (l1 l2 : List String) (s : σ),
      (run_scan E tf cfg mb s (l1 ++ l2)).1 =
        (run_scan E tf cfg mb s l1).1 ++
          (run_scan E tf cfg mb (run_scan E tf cfg mb s l1).2 l2).1 := by
  intro l1
  induction l1 with
  | nil => intro l2 s; simp [run_scan]
  | cons sym rest ih =>
    intro l2 s
    rw [List.cons_append, run_scan, run_scan]
    cases hp : processSymbol E tf cfg mb s sym with
    | mk r s2 =>
      cases r with
      | error e => exact ih l2 s2
      | ok b =>
        cases b with
        | false => exact ih l2 s2
        | true => simp [ih l2 s2]

/-- C9: run_scan returns a plain list for every environment — an
exception inside one symbol's pipeline (cache lookup, load, resample,
enrich, cache store or predicate) is caught by the per-symbol handler —
the output is always a subsequence of the input universe, a symbol whose
processing raises is skipped while every remaining symbol is still
processed from the state the failure left behind, and a failing symbol
never appears in the match list. -/
theorem c9_run_scan_isolates_failures {σ α : Type} (E : ScanEnv σ α) (tf : String)
    (cfg : IndicatorConfig) (mb : ℕ) :
    (∀ (syms : List String) (s : σ), ((run_scan E tf cfg mb s syms).1).Sublist syms) ∧
    (∀ (s : σ) (pre : List String) (sym : String) (post : List String) (e : String),
      (processSymbol E tf cfg mb (run_scan E tf cfg mb s pre).2 sym).1 = .error e →
      (run_scan E tf cfg mb s (pre ++ sym :: post)).1 =
        (run_scan E tf cfg mb s pre).1 ++
          (run_scan E tf cfg mb
            (processSymbol E tf cfg mb (run_scan E tf cfg mb s pre).2 sym).2 post).1 ∧
      (sym ∉ pre → sym ∉ post →
        sym ∉ (run_scan E tf cfg mb s (pre ++ sym :: post)).1)) := by
  refine ⟨run_scan_sublist E tf cfg mb, ?_⟩
  intro s pre sym post e herr
  have hsplit : (run_scan E tf cfg mb s (pre ++ sym :: post)).1 =
      (run_scan E tf cfg mb s pre).1 ++
        (run_scan E tf cfg mb
          (processSymbol E tf cfg mb (run_scan E tf cfg mb s pre).2 sym).2 post).1 := by
    rw [run_scan_append E tf cfg mb pre (sym :: post) s]
    congr 1
    rw [run_scan]
    cases hp : processSymbol E tf cfg mb (run_scan E tf cfg mb s pre).2 sym with
    | mk r s2 =>
      rw [hp] at herr
      simp only at herr
      subst herr
      rfl
  refine ⟨hsplit, fun hnpre hnpost hmem => ?_⟩
  rw [hsplit] at hmem
  rcases List.mem_append.mp hmem with h | h
  · exact hnpre ((run_scan_sublist E tf cfg mb pre s).mem h)
  · exact hnpost ((run_scan_sublist E tf cfg mb post _).mem h)

/-- A concrete scan environment over unit state whose price loader
raises on symbol B only; tables are bar counts. -/
def c9DemoEnv : ScanEnv Unit ℕ where
  cacheGet := fun s _ _ _ => (.ok none, s)
  load_prices := fun s sym => (if sym = "B" then .error "db down" else .ok (100 : ℕ), s)
  tfCandles := fun s df _ => (.ok df, s)
  applyInd := fun s df _ => (.ok df, s)
  cacheSet := fun s _ _ _ _ => (.ok (), s)
  rule_fn := fun s _ => (.ok true, s)
  nrows := fun n => n

/-- C9 witness: with the demo environment, run_scan over [A, B, C]
proceeds past the failing symbol B, and B never appears in the result. -/
theorem c9_run_scan_isolates_failures_witness :
    "B" ∉ (run_scan c9DemoEnv "1D" {} 1 () ["A", "B", "C"]).1 := by
  exact ((c9_run_scan_isolates_failures c9DemoEnv "1D" {} 1).2 () ["A"] "B" ["C"] "db down"
    rfl).2 (by decide) (by decide)

/-! ### C4: weekly resampling -/

/-- Consecutive deduplication of a key list: the distinct ISO-week keys
of a chronologically ordered bar table, in order of appearance. -/
def dedupC : List ℤ → List ℤ
  | [] => []
  | [x] => [x]
  | x :: y :: t => if x = y then dedupC (y :: t) else x :: dedupC (y :: t)

theorem dedupC_head? (y : ℤ) (t : List ℤ) : (dedupC (y :: t)).head? = some y := by
  induction t generalizing y with
  | nil => rfl
  | cons z t' ih =>
    by_cases h : y = z
    · rw [dedupC, if_pos h, h]
      exact ih z
    · rw [dedupC, if_neg h]
      rfl

theorem dedupC_ne_nil (y : ℤ) (t : List ℤ) : dedupC (y :: t) ≠ [] := by
  intro h
  have := dedupC_head? y t
  rw [h] at this
  cases this

theorem mem_dedupC {x : ℤ} : ∀ {l : List ℤ}, x ∈ dedupC l → x ∈ l := by
  intro l
  induction l with
  | nil => intro h; cases h
  | cons y t ih =>
    intro h
    cases t with
    | nil => exact h
    | cons z t' =>
      rw [dedupC] at h
      by_cases hyz : y = z
      · rw [if_pos hyz] at h
        exact List.mem_cons_of_mem y (ih h)
      · rw [if_neg hyz] at h
        rcases List.mem_cons.mp h with h1 | h1
        · exact h1 ▸ List.mem_cons_self y _
        · exact List.mem_cons_of_mem y (ih h1)

theorem chain_lt_dedupC : ∀ {l : List ℤ}, l.Chain' (· ≤ ·) → (dedupC l).Chain' (· < ·) := by
  intro l
  induction l with
  | nil => intro _; exact List.chain'_nil
  | cons y t ih =>
    intro h
    cases t with
    | nil => exact List.chain'_singleton y
    | cons z t' =>
      have hyz : y ≤ z := (List.chain'_cons.mp h).1
      have htail := (List.chain'_cons.mp h).2
      rw [dedupC]
      by_cases heq : y = z
      · rw [if_pos heq]
        exact ih htail
      · rw [if_neg heq]
        have hlt : y < z := lt_of_le_of_ne hyz heq
        have hd := dedupC_head? z t'
        rw [List.chain'_cons']
        refine ⟨fun w hw => ?_, ih htail⟩
        rw [hd] at hw
        injection hw with hw2
        rw [← hw2]
        exact hlt

theorem insertKey_of_le_head (x y : ℤ) (ys : List ℤ) (hxy : x ≤ y) :
    insertKey x (y :: ys) = if x = y then y :: ys else x :: y :: ys := by
  by_cases heq : x = y
  · rw [if_pos heq]
    rw [insertKey, if_neg (by omega), if_pos heq]
  · rw [if_neg heq]
    rw [insertKey, if_pos (lt_of_le_of_ne hxy heq)]

theorem sortedKeys_eq_dedupC : ∀ {l : List ℤ}, l.Chain' (· ≤ ·) → sortedKeys l = dedupC l := by
  intro l
  induction l with
  | nil => intro _; rfl
  | cons x t ih =>
    intro h
    cases t with
    | nil => rfl
    | cons y t' =>
      have hxy : x ≤ y := (List.chain'_cons.mp h).1
      have htail := (List.chain'_cons.mp h).2
      have hrec : sortedKeys (y :: t') = dedupC (y :: t') := ih htail
      have hstep : sortedKeys (x :: y :: t') = insertKey x (sortedKeys (y :: t')) := rfl
      rw [hstep, hrec]
      obtain ⟨rest, hrest⟩ : ∃ rest, dedupC (y :: t') = y :: rest := by
        cases hd : dedupC (y :: t') with
        | nil => exact absurd hd (dedupC_ne_nil y t')
        | cons h0 r0 =>
          have := dedupC_head? y t'
          rw [hd] at this
          injection this with h2
          exact ⟨r0, by rw [h2]⟩
      rw [hrest, insertKey_of_le_head x y rest hxy, dedupC]
      by_cases heq : x = y
      · rw [if_pos heq, if_pos heq, hrest]
      · rw [if_neg heq, if_neg heq, hrest]

theorem dedupC_cons2 (x y : ℤ) (t : List ℤ) :
    dedupC (x :: y :: t) = if x = y then dedupC (y :: t) else x :: dedupC (y :: t) := by
  rw [dedupC]

theorem chunkWeeks_eq_nil : ∀ {rows : List BarRow}, chunkWeeks rows = [] → rows = [] := by
  intro rows h
  cases rows with
  | nil => rfl
  | cons r rs =>
    rw [chunkWeeks] at h
    rcases hc : chunkWeeks rs with _ | ⟨⟨w0, g0⟩, rest⟩
    · rw [hc] at h; cases h
    · rw [hc] at h
      dsimp only at h
      by_cases hk : isoWeekKey r.date = w0
      · rw [if_pos hk] at h; cases h
      · rw [if_neg hk] at h; cases h

theorem chunkWeeks_head_key {r : BarRow} {rs : List BarRow} {w : ℤ} {g : List BarRow}
    {rest : List (ℤ × List BarRow)} (h : chunkWeeks (r :: rs) = (w, g) :: rest) :
    w = isoWeekKey r.date := by
  rw [chunkWeeks] at h
  rcases hc : chunkWeeks rs with _ | ⟨⟨w0, g0⟩, rest'⟩
  · rw [hc] at h
    dsimp only at h
    injection h with h1 _
    injection h1 with h2 _
    exact h2.symm
  · rw [hc] at h
    dsimp only at h
    by_cases hk : isoWeekKey r.date = w0
    · rw [if_pos hk] at h
      injection h with h1 _
      injection h1 with h2 _
      rw [← h2, ← hk]
    · rw [if_neg hk] at h
      injection h with h1 _
      injection h1 with h2 _
      exact h2.symm

theorem chunkWeeks_groups_ne_nil :
    ∀ {rows : List BarRow} {p : ℤ × List BarRow}, p ∈ chunkWeeks rows → p.2 ≠ [] := by
  intro rows
  induction rows with
  | nil => intro p hp; cases hp
  | cons r rs ih =>
    intro p hp
    rw [chunkWeeks] at hp
    rcases hc : chunkWeeks rs with _ | ⟨⟨w0, g0⟩, rest⟩
    · rw [hc] at hp
      dsimp only at hp
      rcases List.mem_singleton.mp hp with h
      rw [h]
      exact List.cons_ne_nil r []
    · rw [hc] at hp
      dsimp only at hp
      by_cases hk : isoWeekKey r.date = w0
      · rw [if_pos hk] at hp
        rcases List.mem_cons.mp hp with h1 | h1
        · rw [h1]; exact List.cons_ne_nil r g0
        · exact ih (hc ▸ List.mem_cons_of_mem (w0, g0) h1)
      · rw [if_neg hk] at hp
        rcases List.mem_cons.mp hp with h1 | h1
        · rw [h1]; exact List.cons_ne_nil r []
        · exact ih (hc ▸ h1)

theorem chunkWeeks_keys : ∀ rows : List BarRow,
    (chunkWeeks rows).map Prod.fst = dedupC (rows.map (fun r => isoWeekKey r.date)) := by
  intro rows
  induction rows with
  | nil => rfl
  | cons r rs ih =>
    rw [chunkWeeks]
    rcases hc : chunkWeeks rs with _ | ⟨⟨w0, g0⟩, rest⟩
    · have hrs : rs = [] := chunkWeeks_eq_nil hc
      rw [hrs]
      rfl
    · have hrs : rs ≠ [] := by
        intro h
        rw [h] at hc
        cases hc
      obtain ⟨r2, rs', hrs2⟩ : ∃ r2 rs', rs = r2 :: rs' := by
        cases rs with
        | nil => exact absurd rfl hrs
        | cons a b => exact ⟨a, b, rfl⟩
      have hw : w0 = isoWeekKey r2.date := by
        have hc' : chunkWeeks (r2 :: rs') = (w0, g0) :: rest := by rw [← hrs2, hc]
        exact chunkWeeks_head_key hc'
      rw [hc] at ih
      rw [hrs2] at ih
      simp only [List.map_cons] at ih
      dsimp only
      by_cases hk : isoWeekKey r.date = w0
      · rw [if_pos hk, hrs2]
        simp only [List.map_cons]
        rw [dedupC_cons2, if_pos (by rw [hk, hw])]
        exact ih
      · rw [if_neg hk, hrs2]
        simp only [List.map_cons]
        rw [dedupC_cons2, if_neg (by rw [← hw]; exact hk), ← ih]

theorem chunkWeeks_filter :
    ∀ {rows : List BarRow},
      (rows.map (fun r => isoWeekKey r.date)).Chain' (· ≤ ·) →
      ∀ p ∈ chunkWeeks rows, rows.filter (fun r => isoWeekKey r.date == p.1) = p.2 := by
  intro rows
  induction rows with
  | nil => intro _ p hp; cases hp
  | cons r rs ih =>
    intro hch p hp
    have hch' : (rs.map (fun r => isoWeekKey r.date)).Chain' (· ≤ ·) := by
      have h := hch.tail
      simpa using h
    have hle : ∀ x ∈ rs.map (fun r => isoWeekKey r.date), isoWeekKey r.date ≤ x := by
      rw [List.map_cons] at hch
      exact (List.pairwise_cons.mp (List.chain'_iff_pairwise.mp hch)).1
    have hklt : ((chunkWeeks rs).map Prod.fst).Chain' (· < ·) := by
      rw [chunkWeeks_keys]
      exact chain_lt_dedupC hch'
    rw [chunkWeeks] at hp
    rcases hc : chunkWeeks rs with _ | ⟨⟨w0, g0⟩, rest⟩
    · have hrs := chunkWeeks_eq_nil hc
      subst hrs
      rw [hc] at hp
      dsimp only at hp
      rcases List.mem_singleton.mp hp with h
      rw [h]
      dsimp only
      simp [List.filter]
    · rw [hc] at hp
      dsimp only at hp
      have hrs : rs ≠ [] := by
        intro h
        rw [h] at hc
        cases hc
      obtain ⟨r2, rs', hrs2⟩ : ∃ r2 rs', rs = r2 :: rs' := by
        cases rs with
        | nil => exact absurd rfl hrs
        | cons a b => exact ⟨a, b, rfl⟩
      have hw : w0 = isoWeekKey r2.date := by
        have hc' : chunkWeeks (r2 :: rs') = (w0, g0) :: rest := by rw [← hrs2, hc]
        exact chunkWeeks_head_key hc'
      have hmem2 : isoWeekKey r2.date ∈ rs.map (fun r => isoWeekKey r.date) := by
        rw [hrs2, List.map_cons]
        exact List.mem_cons_self _ _
      have h2le : ∀ x ∈ rs.map (fun r => isoWeekKey r.date), isoWeekKey r2.date ≤ x := by
        intro x hx
        rw [hrs2, List.map_cons] at hx
        rcases List.mem_cons.mp hx with h1 | h1
        · rw [h1]
        · rw [hrs2, List.map_cons] at hch'
          exact (List.pairwise_cons.mp (List.chain'_iff_pairwise.mp hch')).1 x h1
      by_cases hk : isoWeekKey r.date = w0
      · rw [if_pos hk] at hp
        rcases List.mem_cons.mp hp with h1 | h1
        · rw [h1]
          dsimp only
          have hbeq : (isoWeekKey r.date == w0) = true := beq_iff_eq.mpr hk
          rw [List.filter_cons, if_pos hbeq]
          have hgrp := ih hch' (w0, g0) (hc ▸ List.mem_cons_self _ _)
          dsimp only at hgrp
          rw [hgrp]
        · have hpmem : p ∈ chunkWeeks rs := hc ▸ List.mem_cons_of_mem (w0, g0) h1
          have hfil := ih hch' p hpmem
          have hp1 : p.1 ∈ rest.map Prod.fst := List.mem_map_of_mem Prod.fst h1
          have hwlt : w0 < p.1 := by
            rw [hc, List.map_cons] at hklt
            exact (List.pairwise_cons.mp (List.chain'_iff_pairwise.mp hklt)).1 p.1 hp1
          have hne : ¬(isoWeekKey r.date == p.1) = true := by
            rw [beq_iff_eq, hk]
            omega
          rw [List.filter_cons, if_neg hne]
          exact hfil
      · rw [if_neg hk] at hp
        have hkr2 : isoWeekKey r.date < isoWeekKey r2.date :=
          lt_of_le_of_ne (hle _ hmem2) (by rw [← hw]; exact hk)
        rcases List.mem_cons.mp hp with h1 | h1
        · rw [h1]
          dsimp only
          have hbeq : (isoWeekKey r.date == isoWeekKey r.date) = true := beq_iff_eq.mpr rfl
          rw [List.filter_cons, if_pos hbeq]
          have hnil : rs.filter (fun r' => isoWeekKey r'.date == isoWeekKey r.date) = [] := by
            rw [List.filter_eq_nil_iff]
            intro a ha
            have hax : isoWeekKey a.date ∈ rs.map (fun r => isoWeekKey r.date) :=
              List.mem_map_of_mem _ ha
            have := h2le _ hax
            rw [beq_iff_eq]
            omega
          rw [hnil]
        · have hpmem : p ∈ chunkWeeks rs := hc ▸ h1
          have hfil := ih hch' p hpmem
          have hp1 : p.1 ∈ (chunkWeeks rs).map Prod.fst := List.mem_map_of_mem Prod.fst hpmem
          rw [chunkWeeks_keys] at hp1
          have hp1' := mem_dedupC hp1
          have h2 : isoWeekKey r2.date ≤ p.1 := h2le _ hp1'
          have hne : ¬(isoWeekKey r.date == p.1) = true := by
            rw [beq_iff_eq]
            omega
          rw [List.filter_cons, if_neg hne]
          exact hfil

theorem foldl_keep_last (r : BarRow) :
    ∀ rs : List BarRow, (r :: rs).getLast? = some (rs.foldl (fun _ x => x) r) := by
  intro rs
  induction rs generalizing r with
  | nil => rfl
  | cons x t ih =>
    rw [List.getLast?_cons_cons, List.foldl_cons]
    exact ih x

theorem foldl_add_volume :
    ∀ (rs : List BarRow) (a : ℚ),
      rs.foldl (fun s x => s + x.volume) a = a + (rs.map (fun r => r.volume)).sum := by
  intro rs
  induction rs with
  | nil => intro a; rw [List.foldl_nil, List.map_nil, List.sum_nil, add_zero]
  | cons x t ih =>
    intro a
    rw [List.foldl_cons, ih, List.map_cons, List.sum_cons, add_assoc]

theorem max?_getD_foldl (a : ℚ) (l : List ℚ) : ((a :: l).max?).getD 0 = l.foldl max a := rfl

theorem min?_getD_foldl (a : ℚ) (l : List ℚ) : ((a :: l).min?).getD 0 = l.foldl min a := rfl

theorem aggGroup_eq_aggWeekSpec (w : ℤ) (g : List BarRow) (hg : g ≠ []) :
    aggGroup (fridayOfWeek w) g = aggWeekSpec w g := by
  cases g with
  | nil => exact absurd rfl hg
  | cons r rs =>
    rw [aggGroup, aggWeekSpec]
    have hhd : (r :: rs).head? = some r := rfl
    have hlst := foldl_keep_last r rs
    rw [hhd, hlst]
    dsimp only
    have hh : rs.foldl (fun m x => max m x.high) r.high =
        (((r :: rs).map (fun r => r.high)).max?).getD 0 := by
      rw [List.map_cons, max?_getD_foldl, List.foldl_map]
    have hl : rs.foldl (fun m x => min m x.low) r.low =
        (((r :: rs).map (fun r => r.low)).min?).getD 0 := by
      rw [List.map_cons, min?_getD_foldl, List.foldl_map]
    have hv : rs.foldl (fun s x => s + x.volume) r.volume =
        ((r :: rs).map (fun r => r.volume)).sum := by
      rw [foldl_add_volume, List.map_cons, List.sum_cons]
    rw [hh, hl, hv]

theorem aggWeekSpec_date {w : ℤ} {g : List BarRow} {row : BarRow}
    (h : aggWeekSpec w g = some row) : row.date = fridayOfWeek w := by
  rw [aggWeekSpec] at h
  split at h
  · injection h with h1
    rw [← h1]
  · cases h

theorem aggWeekSpec_some_of_ne_nil (w : ℤ) (g : List BarRow) (hg : g ≠ []) :
    ∃ row, aggWeekSpec w g = some row := by
  cases g with
  | nil => exact absurd rfl hg
  | cons r rs =>
    rw [aggWeekSpec]
    have hhd : (r :: rs).head? = some r := rfl
    have hlst := foldl_keep_last r rs
    rw [hhd, hlst]
    exact ⟨_, rfl⟩

theorem chain_filterMap_aggWeekSpec :
    ∀ cs : List (ℤ × List BarRow),
      (cs.map Prod.fst).Chain' (· < ·) →
      (∀ p ∈ cs, p.2 ≠ []) →
      (cs.filterMap (fun p => aggWeekSpec p.1 p.2)).Chain' (fun a b => a.date < b.date) := by
  intro cs
  induction cs with
  | nil => intro _ _; exact List.chain'_nil
  | cons p cs' ih =>
    intro hlt hne
    obtain ⟨row, hrow⟩ := aggWeekSpec_some_of_ne_nil p.1 p.2 (hne p (List.mem_cons_self _ _))
    rw [List.filterMap_cons, hrow]
    rw [List.chain'_cons']
    constructor
    · intro y hy
      have hymem : y ∈ cs'.filterMap (fun p => aggWeekSpec p.1 p.2) := List.mem_of_mem_head? hy
      obtain ⟨q, hq, hqy⟩ := List.mem_filterMap.mp hymem
      have hyd : y.date = fridayOfWeek q.1 := aggWeekSpec_date hqy
      have hrd : row.date = fridayOfWeek p.1 := aggWeekSpec_date hrow
      have hq1 : q.1 ∈ cs'.map Prod.fst := List.mem_map_of_mem Prod.fst hq
      have hpq : p.1 < q.1 := by
        rw [List.map_cons] at hlt
        exact (List.pairwise_cons.mp (List.chain'_iff_pairwise.mp hlt)).1 q.1 hq1
      rw [hyd, hrd, fridayOfWeek, fridayOfWeek]
      omega
    · refine ih ?_ (fun q hq => hne q (List.mem_cons_of_mem p hq))
      rw [List.map_cons] at hlt
      exact hlt.tail

theorem filterMap_congr_mem {α β : Type} (f g : α → Option β) :
    ∀ l : List α, (∀ a ∈ l, f a = g a) → l.filterMap f = l.filterMap g := by
  intro l
  induction l with
  | nil => intro _; rfl
  | cons a l' ih =>
    intro h
    rw [List.filterMap_cons, List.filterMap_cons, h a (List.mem_cons_self _ _),
      ih (fun b hb => h b (List.mem_cons_of_mem a hb))]

theorem weekly_candles_eq_weeklyManual (rows : List BarRow)
    (hch : (rows.map (fun r => isoWeekKey r.date)).Chain' (· ≤ ·)) :
    weekly_candles rows = weeklyManual rows := by
  rw [weekly_candles, weeklyManual, sortedKeys_eq_dedupC hch, ← chunkWeeks_keys]
  rw [List.filterMap_map]
  apply filterMap_congr_mem
  intro p hp
  dsimp only [Function.comp]
  rw [chunkWeeks_filter hch p hp, aggGroup_eq_aggWeekSpec p.1 p.2 (chunkWeeks_groups_ne_nil hp)]

/-- **C4.** For every ascending daily bar table, weekly resampling
(timeframe "1W") produces exactly the table obtained by grouping rows by
ISO (year, week) and aggregating open=first, high=max, low=min,
close=last, volume=sum per group, timestamping each output row to the
Friday of its ISO week (no group's aggregates introduce NaN, so the
dropna removes nothing); and the output rows are in ascending date
order. -/
theorem c4_weekly_resample_manual_grouping (rows : List BarRow)
    (hasc : rows.Chain' (fun a b => a.date < b.date)) :
    get_tf_candles rows "1W" = .ok (weeklyManual rows) ∧
    (weeklyManual rows).Chain' (fun a b => a.date < b.date) := by
  have hkeys : (rows.map (fun r => isoWeekKey r.date)).Chain' (· ≤ ·) := by
    rw [List.chain'_map]
    refine hasc.imp ?_
    intro a b h
    simp only [isoWeekKey]
    exact Int.ediv_le_ediv (by norm_num) (le_of_lt h)
  constructor
  · cases hrows : rows with
    | nil => rfl
    | cons r rs =>
      rw [← hrows]
      have hemp : rows.isEmpty = false := by rw [hrows]; rfl
      simp only [get_tf_candles, hemp, Bool.false_eq_true, if_false]
      have h1 : ("1W" == "1D") = false := rfl
      have h2 : ("1W" == "1W") = true := rfl
      rw [h1, h2]
      simp only [Bool.false_eq_true, if_false, if_true]
      rw [weekly_candles_eq_weeklyManual rows hkeys]
  · have hlt : ((chunkWeeks rows).map Prod.fst).Chain' (· < ·) := by
      rw [chunkWeeks_keys]
      exact chain_lt_dedupC hkeys
    have hne : ∀ p ∈ chunkWeeks rows, p.2 ≠ [] := fun p hp => chunkWeeks_groups_ne_nil hp
    rw [weeklyManual]
    exact chain_filterMap_aggWeekSpec (chunkWeeks rows) hlt hne

/-- Three concrete daily bars spanning two ISO weeks. -/
def c4Rows : List BarRow :=
  [⟨0, 1, 2, 1, 2, 10⟩, ⟨1, 2, 3, 1, 1, 5⟩, ⟨7, 4, 5, 3, 4, 2⟩]

theorem c4_weekly_resample_manual_grouping_witness :
    get_tf_candles c4Rows "1W" = .ok (weeklyManual c4Rows) ∧
    (weeklyManual c4Rows).Chain' (fun a b => a.date < b.date) := by
  refine c4_weekly_resample_manual_grouping c4Rows ?_
  unfold c4Rows
  exact List.chain'_cons.mpr ⟨by decide, List.chain'_cons.mpr ⟨by decide, List.chain'_singleton _⟩⟩
